import Mathlib

/-!
Verification of the `nyx` Tailwind class formatter/linter core.

This file gives a shallow embedding of the repository's core algorithms and
proves (or refutes) the specification claims about them:

* `src/fixer.ts` — the patch engine (`applyFixes` / `spliceChangesIntoString`),
* `src/cache.ts` — the persistent fingerprint cache,
* `src/config.ts` — configuration resolution and `hashConfig`,
* `src/canonicalize.ts` — the lint pass `findNonCanonicalClasses`,
* `src/sorter.ts` — the sort pass `findUnsortedClasses` with its
  `class(Name)?="…"` scanner and the `tailwind` / `alphabetical` strategies,
* the `run` pipeline of `src/cli.ts` (its cache-update control flow).

Strings are modelled as `List Char`.  External collaborators (the Tailwind
design system, `localeCompare`, `crypto.createHash`, the oxide scanner, the
filesystem) are parameters of the embedded functions, exactly at the
boundaries where the TypeScript code calls them.
-/

namespace Nyx

/-! ## Section 1: the patch engine (src/fixer.ts)

`spliceChangesIntoString` sorts the changes with the comparator
`(a, b) => a.end - b.end || a.start - b.start` (ECMAScript `Array.prototype.sort`
is stable and, for a consistent comparator, produces a list ordered by the
comparator; we model it by `List.mergeSort`, which is stable) and then walks
the sorted list appending `str.slice(previous.end, change.start)` and the
replacement, finishing with `str.slice(previous.end)`.
-/

/-- A text edit: replace the half-open span `[start, stop)` by `replacement`.
Mirrors `StringChange` in `src/fixer.ts` (`stop` models the field `end`,
which is a reserved word in Lean). -/
structure StringChange where
  start : Nat
  stop : Nat
  replacement : List Char
deriving DecidableEq, Repr

/-- One reported issue; mirrors `Diagnostic` in `src/canonicalize.ts`. -/
structure Diagnostic where
  file : List Char
  line : Nat
  column : Nat
  offset : Nat
  length : Nat
  original : List Char
  canonical : List Char
  lineContent : List Char
deriving DecidableEq, Repr

/-- JS `str.slice(a, b)` for non-negative arguments: the characters at
positions `[a, b)`, clamped to the string (empty when `a ≥ b`). -/
def jsSlice (l : List Char) (a b : Nat) : List Char :=
  (l.take b).drop a

/-- The sort predicate modelling the comparator
`(a, b) => a.end - b.end || a.start - b.start`: `a` need not come after `b`
exactly when the comparator is `≤ 0`. -/
def changeLE (a b : StringChange) : Bool :=
  a.stop < b.stop || (a.stop == b.stop && a.start ≤ b.start)

/-- The walk of `spliceChangesIntoString` after the first change:
`result += str.slice(previous.end, change.start); result += change.replacement`,
and finally `result += str.slice(previous.end)`. -/
def spliceLoop (str : List Char) (previous : StringChange) :
    List StringChange → List Char
  | [] => jsSlice str previous.stop str.length
  | change :: rest =>
    jsSlice str previous.stop change.start ++ change.replacement ++
      spliceLoop str change rest

/-- `spliceChangesIntoString` from `src/fixer.ts`: sort by `(end, start)`
ascending, then splice.  (The TS guard `if (!changes[0]) return str` is the
empty-list case.) -/
def spliceChangesIntoString (str : List Char) (changes : List StringChange) :
    List Char :=
  match List.mergeSort changes changeLE with
  | [] => str
  | first :: rest =>
    jsSlice str 0 first.start ++ first.replacement ++ spliceLoop str first rest

/-- `applyFixes` from `src/fixer.ts`: turn diagnostics into changes
(`start = offset`, `end = offset + length`, `replacement = canonical`) and
splice them in. -/
def applyFixes (content : List Char) (diagnostics : List Diagnostic) :
    List Char :=
  if diagnostics.length = 0 then content
  else
    spliceChangesIntoString content
      (diagnostics.map fun d => ⟨d.offset, d.offset + d.length, d.canonical⟩)

/-- The cursor walk of the patch algorithm on an already-sorted change list:
append the literal slice `[cursor, start)`, then the replacement, advance the
cursor to `stop`; after the last change append `[cursor, length)`. -/
def spliceWalk (str : List Char) (cursor : Nat) : List StringChange → List Char
  | [] => jsSlice str cursor str.length
  | c :: cs => jsSlice str cursor c.start ++ c.replacement ++ spliceWalk str c.stop cs

/-- Like `spliceWalk` but putting back the original slice `[start, stop)` of
each change instead of its replacement: used to state that the regions not
covered by an edit are exactly the original text. -/
def origWalk (str : List Char) (cursor : Nat) : List StringChange → List Char
  | [] => jsSlice str cursor str.length
  | c :: cs => jsSlice str cursor c.start ++ jsSlice str c.start c.stop ++ origWalk str c.stop cs

theorem jsSlice_zero_length (l : List Char) : jsSlice l 0 l.length = l := by
  simp [jsSlice]

theorem jsSlice_eq_nil {a b : Nat} (l : List Char) (h : b ≤ a) :
    jsSlice l a b = [] := by
  apply List.drop_eq_nil_of_le
  exact le_trans (List.length_take_le _ _) h

theorem jsSlice_glue {a b c : Nat} (l : List Char) (hab : a ≤ b) (hbc : b ≤ c) :
    jsSlice l a b ++ jsSlice l b c = jsSlice l a c := by
  unfold jsSlice
  have htk : l.take b = (l.take c).take b := by
    rw [List.take_take, Nat.min_eq_left hbc]
  rw [htk]
  generalize l.take c = X
  by_cases hb : b ≤ X.length
  · conv_rhs => rw [← List.take_append_drop b X]
    rw [List.drop_append_of_le_length]
    simpa [hb] using hab
  · push_neg at hb
    rw [List.take_of_length_le (le_of_lt hb)]
    rw [List.drop_eq_nil_of_le (le_of_lt hb)]
    simp

theorem spliceLoop_eq_spliceWalk (str : List Char) (previous : StringChange)
    (cs : List StringChange) :
    spliceLoop str previous cs = spliceWalk str previous.stop cs := by
  induction cs generalizing previous with
  | nil => rfl
  | cons c cs ih => simp [spliceLoop, spliceWalk, ih]

theorem spliceChangesIntoString_eq_walk (str : List Char)
    (changes : List StringChange) :
    spliceChangesIntoString str changes =
      spliceWalk str 0 (List.mergeSort changes changeLE) := by
  unfold spliceChangesIntoString
  match h : List.mergeSort changes changeLE with
  | [] => simp [spliceWalk, jsSlice_zero_length]
  | first :: rest => simp [spliceWalk, spliceLoop_eq_spliceWalk]

theorem nonoverlap_symm :
    Symmetric (fun c d : StringChange => c.stop ≤ d.start ∨ d.stop ≤ c.start) :=
  fun _ _ h => Or.symm h

theorem changeLE_trans (a b c : StringChange) :
    changeLE a b → changeLE b c → changeLE a c := by
  simp only [changeLE, Bool.or_eq_true, Bool.and_eq_true, decide_eq_true_eq, beq_iff_eq]
  omega

theorem changeLE_total (a b : StringChange) : changeLE a b || changeLE b a := by
  simp only [changeLE, Bool.or_eq_true, Bool.and_eq_true, decide_eq_true_eq, beq_iff_eq]
  omega

/-- If the changes are in-bounds and pairwise non-overlapping, the
`(end, start)`-sorted list is chain-ordered: each change ends no later than
the next one starts. -/
theorem sorted_nonoverlap_chain {c d : StringChange}
    (_hcb : c.start ≤ c.stop) (_hdb : d.start ≤ d.stop)
    (hle : changeLE c d)
    (hno : c.stop ≤ d.start ∨ d.stop ≤ c.start) :
    c.stop ≤ d.start := by
  simp only [changeLE, Bool.or_eq_true, Bool.and_eq_true, decide_eq_true_eq, beq_iff_eq] at hle
  omega

theorem origWalk_eq_slice (str : List Char) :
    ∀ (cs : List StringChange) (cursor : Nat),
    (∀ c ∈ cs, c.start ≤ c.stop ∧ c.stop ≤ str.length) →
    cs.Pairwise (fun c d => c.stop ≤ d.start) →
    (∀ c, cs.head? = some c → cursor ≤ c.start) →
    origWalk str cursor cs = jsSlice str cursor str.length
  | [], cursor, _, _, _ => rfl
  | c :: cs, cursor, hb, hchain, hcur => by
    have hc := hb c (List.mem_cons_self c cs)
    have hcs : cursor ≤ c.start := hcur c rfl
    have ih := origWalk_eq_slice str cs c.stop
      (fun d hd => hb d (List.mem_cons_of_mem c hd))
      hchain.of_cons
      (by
        intro d hd
        cases cs with
        | nil => simp at hd
        | cons d' cs' =>
          simp only [List.head?_cons, Option.some.injEq] at hd
          exact hd ▸ (List.pairwise_cons.mp hchain).1 d' (List.mem_cons_self d' cs'))
    simp only [origWalk]
    rw [ih, jsSlice_glue str hcs hc.1, jsSlice_glue str (le_trans hcs hc.1) hc.2]

/-- **C1** (patch correctness).  For any base text and any list of changes
whose coordinates were computed against that text (`start ≤ stop ≤ length`)
and which are pairwise non-overlapping (end-to-end adjacency allowed), in
whatever order they are given, `spliceChangesIntoString` sorts them by
`(end, start)` ascending and its output is the cursor walk over that sorted
(permuted) list: each change's replacement appears in place of its
`[start, stop)` slice, and the regions between changes are exactly the
original text — `origWalk` puts the original slices back and reproduces `str`
itself.  Replacements may be shorter or longer than the spans they replace. -/
theorem spliceChangesIntoString_correct (str : List Char)
    (changes : List StringChange)
    (hb : ∀ c ∈ changes, c.start ≤ c.stop ∧ c.stop ≤ str.length)
    (hno : changes.Pairwise fun c d => c.stop ≤ d.start ∨ d.stop ≤ c.start) :
    ∃ sorted : List StringChange,
      changes.Perm sorted ∧
      sorted.Pairwise (fun c d => c.stop ≤ d.start) ∧
      spliceChangesIntoString str changes = spliceWalk str 0 sorted ∧
      str = origWalk str 0 sorted := by
  refine ⟨List.mergeSort changes changeLE, (List.mergeSort_perm changes changeLE).symm, ?_, ?_, ?_⟩
  case _ =>
    have hsorted : (List.mergeSort changes changeLE).Pairwise fun a b => changeLE a b :=
      List.sorted_mergeSort changeLE_trans changeLE_total changes
    have hno' : (List.mergeSort changes changeLE).Pairwise
        (fun c d => c.stop ≤ d.start ∨ d.stop ≤ c.start) :=
      ((List.mergeSort_perm changes changeLE).pairwise_iff (fun h => Or.symm h)).mpr hno
    refine (hsorted.and hno').imp_of_mem ?_
    intro c d hc hd h
    exact sorted_nonoverlap_chain
      (hb c ((List.mergeSort_perm changes changeLE).mem_iff.mp hc)).1
      (hb d ((List.mergeSort_perm changes changeLE).mem_iff.mp hd)).1
      h.1 h.2
  case _ => exact spliceChangesIntoString_eq_walk str changes
  case _ =>
    have hsorted : (List.mergeSort changes changeLE).Pairwise fun a b => changeLE a b :=
      List.sorted_mergeSort changeLE_trans changeLE_total changes
    have hno' : (List.mergeSort changes changeLE).Pairwise
        (fun c d => c.stop ≤ d.start ∨ d.stop ≤ c.start) :=
      ((List.mergeSort_perm changes changeLE).pairwise_iff (fun h => Or.symm h)).mpr hno
    have hb' : ∀ c ∈ List.mergeSort changes changeLE, c.start ≤ c.stop ∧ c.stop ≤ str.length :=
      fun c hc => hb c ((List.mergeSort_perm changes changeLE).mem_iff.mp hc)
    have hchain : (List.mergeSort changes changeLE).Pairwise (fun c d => c.stop ≤ d.start) := by
      refine (hsorted.and hno').imp_of_mem ?_
      intro c d hc hd h
      exact sorted_nonoverlap_chain (hb' c hc).1 (hb' d hd).1 h.1 h.2
    rw [origWalk_eq_slice str _ 0 hb' hchain (fun _ _ => Nat.zero_le _),
      jsSlice_zero_length]

/-- Witness for C1 at the spec's length-changing example:
`"class=\"h-[72px] w-[100px]\""` with edits `(7,15)→"h-18"` and
`(16,25)→"w-25"` (given in reverse order) satisfies the hypotheses, and the
result is `"class=\"h-18 w-25\""`. -/
theorem spliceChangesIntoString_correct_witness :
    ((∀ c ∈ [StringChange.mk 16 25 "w-25".data, StringChange.mk 7 15 "h-18".data],
        c.start ≤ c.stop ∧ c.stop ≤ ("class=\"h-[72px] w-[100px]\"".data).length) ∧
      ([StringChange.mk 16 25 "w-25".data, StringChange.mk 7 15 "h-18".data].Pairwise
        fun c d => c.stop ≤ d.start ∨ d.stop ≤ c.start)) ∧
    (∃ sorted : List StringChange,
      [StringChange.mk 16 25 "w-25".data, StringChange.mk 7 15 "h-18".data].Perm sorted ∧
      sorted.Pairwise (fun c d => c.stop ≤ d.start) ∧
      spliceChangesIntoString "class=\"h-[72px] w-[100px]\"".data
        [StringChange.mk 16 25 "w-25".data, StringChange.mk 7 15 "h-18".data] =
        spliceWalk "class=\"h-[72px] w-[100px]\"".data 0 sorted ∧
      "class=\"h-[72px] w-[100px]\"".data =
        origWalk "class=\"h-[72px] w-[100px]\"".data 0 sorted) :=
  ⟨⟨by decide, by decide⟩,
    spliceChangesIntoString_correct _ _ (by decide) (by decide)⟩

/-- `spliceChangesIntoString` on a list already sorted by `(end, start)` is
the cursor walk over that list itself (the stable sort leaves it unchanged). -/
theorem spliceChangesIntoString_of_sorted (str : List Char)
    (changes : List StringChange) (h : changes.Pairwise fun a b => changeLE a b) :
    spliceChangesIntoString str changes = spliceWalk str 0 changes := by
  rw [spliceChangesIntoString_eq_walk, List.mergeSort_of_sorted h]

/-- Sanity: the spliced result at the witness input is the expected fix. -/
theorem splice_example_eval :
    spliceChangesIntoString "class=\"h-[72px] w-[100px]\"".data
      [StringChange.mk 7 15 "h-18".data, StringChange.mk 16 25 "w-25".data] =
      "class=\"h-18 w-25\"".data := by
  rw [spliceChangesIntoString_of_sorted _ _ (by decide)]
  decide

/-! ### C3: edits with an identical `(start, end)` pair

After the stable sort two such edits are adjacent; the slice
`str.slice(previous.end, change.start)` between them is empty because
`previous.end ≥ change.start`, so the loop emits BOTH replacements — nothing
is discarded. -/

/-- **C3 counterexample**: on `"hello"` with the two edits `(1, 3, "XX")` and
`(1, 3, "YY")` the output is `"hXXYYlo"`: it is not `"hYYlo"` (the result the
claim predicts), and the earlier edit's replacement `"XX"` does appear in the
output. -/
theorem identical_span_counterexample :
    spliceChangesIntoString "hello".data
        [StringChange.mk 1 3 "XX".data, StringChange.mk 1 3 "YY".data] =
      "hXXYYlo".data ∧
    spliceChangesIntoString "hello".data
        [StringChange.mk 1 3 "XX".data, StringChange.mk 1 3 "YY".data] ≠
      "hYYlo".data ∧
    spliceChangesIntoString "hello".data
        [StringChange.mk 1 3 "XX".data, StringChange.mk 1 3 "YY".data] =
      "h".data ++ "XX".data ++ "YYlo".data := by
  have h : spliceChangesIntoString "hello".data
      [StringChange.mk 1 3 "XX".data, StringChange.mk 1 3 "YY".data] =
      "hXXYYlo".data := by
    rw [spliceChangesIntoString_of_sorted _ _ (by decide)]
    decide
  exact ⟨h, by rw [h]; decide, by rw [h]; decide⟩

/-- **C3 amended**: when two distinct edits share an identical `(start, end)`
pair, BOTH take effect: the `[start, stop)` slice is removed once and replaced
by the first-given edit's replacement immediately followed by the second's
(the stable sort keeps tied edits in input order); neither replacement is
discarded. -/
theorem splice_identical_span_both_apply (str : List Char)
    (c₁ c₂ : StringChange)
    (hs : c₁.start = c₂.start) (he : c₁.stop = c₂.stop)
    (hb : c₁.start ≤ c₁.stop) :
    spliceChangesIntoString str [c₁, c₂] =
      jsSlice str 0 c₁.start ++ c₁.replacement ++ c₂.replacement ++
        jsSlice str c₁.stop str.length := by
  have hle : changeLE c₁ c₂ = true := by
    simp [changeLE, hs, he]
  rw [spliceChangesIntoString_of_sorted _ _ (by simp [List.pairwise_cons, hle])]
  simp only [spliceWalk]
  rw [jsSlice_eq_nil str (by omega : c₂.start ≤ c₁.stop), ← he]
  simp

/-- Witness for the amended C3 at a concrete input. -/
theorem splice_identical_span_both_apply_witness :
    ((StringChange.mk 1 3 "XX".data).start = (StringChange.mk 1 3 "YY".data).start ∧
      (StringChange.mk 1 3 "XX".data).stop = (StringChange.mk 1 3 "YY".data).stop ∧
      (StringChange.mk 1 3 "XX".data).start ≤ (StringChange.mk 1 3 "XX".data).stop) ∧
    spliceChangesIntoString "hello".data
        [StringChange.mk 1 3 "XX".data, StringChange.mk 1 3 "YY".data] =
      jsSlice "hello".data 0 1 ++ "XX".data ++ "YY".data ++
        jsSlice "hello".data 3 ("hello".data).length :=
  ⟨⟨rfl, rfl, by decide⟩,
    splice_identical_span_both_apply _ _ _ rfl rfl (by decide)⟩

/-! ## Section 2: the fingerprint cache (src/cache.ts)

The cache closure owns a `CacheData` record.  The filesystem is a parameter:
`stat : path → Option StatV` models `fs.statSync` (`none` = the call threw,
e.g. the file was deleted).  The `files` map (a JS object keyed by absolute
path) is an association list with unique keys; `setEntry` overwrites in place
and `getEntry` looks up. -/

/-- The two fields of `fs.Stats` that `src/cache.ts` reads and compares with
`===`.  They are JS numbers; the cache never does arithmetic on them, only
exact comparison, so `Int` is a faithful carrier. -/
structure StatV where
  mtimeMs : Int
  size : Int
deriving DecidableEq, Repr

/-- `data.files[path]` — property lookup on a JS object. -/
def getEntry (files : List (List Char × StatV)) (p : List Char) : Option StatV :=
  match files with
  | [] => none
  | (q, v) :: rest => if q = p then some v else getEntry rest p

/-- `data.files[path] = entry` — property assignment on a JS object
(overwrites in place, appends if absent). -/
def setEntry (files : List (List Char × StatV)) (p : List Char) (v : StatV) :
    List (List Char × StatV) :=
  match files with
  | [] => [(p, v)]
  | (q, w) :: rest => if q = p then (q, v) :: rest else (q, w) :: setEntry rest p v

/-- `delete data.files[path]`. -/
def delEntry (files : List (List Char × StatV)) (p : List Char) :
    List (List Char × StatV) :=
  files.filter fun e => ¬ (e.1 = p)

/-- The `files` field of a parsed snapshot, as seen through the unvalidated
cast `as CacheData` in `createCache`: either an actual map of entries, or any
other JSON value (`invalid` — e.g. the key is missing, `null`, or a
primitive); the TS code performs no structural validation. -/
inductive RawFiles
  | invalid
  | entries (l : List (List Char × StatV))
deriving DecidableEq, Repr

/-- A parsed snapshot (`JSON.parse` result cast to `CacheData`): `version`
and `configHash` are `none` when the field is absent or not a string (strict
`===` comparison with the requested string is then false). -/
structure RawCacheData where
  version : Option (List Char)
  configHash : Option (List Char)
  files : RawFiles
deriving DecidableEq, Repr

/-- The in-memory store owned by the cache closure. -/
structure CacheData where
  version : List Char
  configHash : List Char
  files : RawFiles
deriving DecidableEq, Repr

/-- The state of the persisted snapshot when `createCache` runs:
absent (`fs.existsSync` false), unreadable-or-malformed (read or `JSON.parse`
threw — the `catch` branch), or parsed. -/
inductive Persisted
  | absent
  | unreadable
  | parsed (raw : RawCacheData)
deriving DecidableEq, Repr

/-- The load phase of `createCache` (src/cache.ts lines 33-56): start from
`{version, configHash, files: {}}`; adopt a parsed snapshot verbatim when its
stored `version` and `configHash` both equal the requested scope; for every
other outcome keep/reset `files = {}`.  A total function: every TS exception
path is caught inside `createCache`. -/
def createCacheData (version configHash : List Char) (persisted : Persisted) :
    CacheData :=
  match persisted with
  | .absent => ⟨version, configHash, .entries []⟩
  | .unreadable => ⟨version, configHash, .entries []⟩
  | .parsed raw =>
    if raw.version = some version ∧ raw.configHash = some configHash then
      ⟨version, configHash, raw.files⟩
    else ⟨version, configHash, .entries []⟩

/-- `isFileCached` (src/cache.ts lines 59-70), acting on the `files` map:
false when no entry exists; false when `statSync` throws (file deleted);
otherwise the live `(mtimeMs, size)` must equal the stored entry exactly. -/
def isFileCached (files : List (List Char × StatV))
    (stat : List Char → Option StatV) (p : List Char) : Bool :=
  match getEntry files p with
  | none => false
  | some entry =>
    match stat p with
    | none => false
    | some st => st.mtimeMs == entry.mtimeMs && st.size == entry.size

/-- `markClean` (src/cache.ts lines 72-82): stat the file and store its
`(mtimeMs, size)`; a stat failure is swallowed and nothing is written. -/
def markClean (files : List (List Char × StatV))
    (stat : List Char → Option StatV) (p : List Char) :
    List (List Char × StatV) :=
  match stat p with
  | none => files
  | some st => setEntry files p st

/-- `markDirty` (src/cache.ts lines 84-86). -/
def markDirty (files : List (List Char × StatV)) (p : List Char) :
    List (List Char × StatV) :=
  delEntry files p

theorem getEntry_setEntry_self (files : List (List Char × StatV))
    (p : List Char) (v : StatV) : getEntry (setEntry files p v) p = some v := by
  induction files with
  | nil => simp [setEntry, getEntry]
  | cons e rest ih =>
    obtain ⟨q, w⟩ := e
    by_cases h : q = p
    · simp [setEntry, getEntry, h]
    · simp [setEntry, getEntry, h, ih]

theorem getEntry_setEntry_ne (files : List (List Char × StatV))
    (p q : List Char) (v : StatV) (h : q ≠ p) :
    getEntry (setEntry files q v) p = getEntry files p := by
  induction files with
  | nil => simp [setEntry, getEntry, h]
  | cons e rest ih =>
    obtain ⟨r, w⟩ := e
    by_cases hr : r = q
    · subst hr
      simp [setEntry, getEntry, h]
    · simp [setEntry, getEntry, hr, ih]

theorem isFileCached_congr (files files' : List (List Char × StatV))
    (stat : List Char → Option StatV) (p : List Char)
    (h : getEntry files p = getEntry files' p) :
    isFileCached files stat p = isFileCached files' stat p := by
  simp [isFileCached, h]

/-- **C4** (cache hit/miss determinism).  After `markClean(p)` succeeds
(`stat p = some st`):
* `isFileCached(p)` under a later filesystem state `stat'` is true exactly
  when a live stat succeeds and returns the stored `(size, mtimeMs)`;
* a size change, an mtimeMs change, or deletion (stat failure) each
  independently force a miss — and a stat failure is reported as a miss
  (`false`), never as an error (the function is total);
* a cache constructed from a persisted snapshot whose stored scope differs
  from the requested `(version, configHash)` starts with an empty `files`
  map, so `isFileCached` is false for every path. -/
theorem cache_hit_miss_determinism (files : List (List Char × StatV))
    (stat stat' : List Char → Option StatV) (p : List Char) (st : StatV)
    (hstat : stat p = some st) :
    (isFileCached (markClean files stat p) stat' p = true ↔
      ∃ st', stat' p = some st' ∧ st'.mtimeMs = st.mtimeMs ∧ st'.size = st.size) ∧
    (∀ st', stat' p = some st' → st'.size ≠ st.size →
      isFileCached (markClean files stat p) stat' p = false) ∧
    (∀ st', stat' p = some st' → st'.mtimeMs ≠ st.mtimeMs →
      isFileCached (markClean files stat p) stat' p = false) ∧
    (stat' p = none → isFileCached (markClean files stat p) stat' p = false) ∧
    (∀ version configHash version' configHash' entries,
      (version, configHash) ≠ (version', configHash') →
      (createCacheData version' configHash'
          (.parsed ⟨some version, some configHash, .entries entries⟩)).files =
        .entries [] ∧
      isFileCached [] stat' p = false) := by
  have hset : getEntry (markClean files stat p) p = some st := by
    rw [markClean, hstat]
    exact getEntry_setEntry_self files p st
  refine ⟨?_, ?_, ?_, ?_, ?_⟩
  · rw [isFileCached, hset]
    cases hst' : stat' p with
    | none => simp
    | some st' =>
      simp only [Bool.and_eq_true, beq_iff_eq]
      constructor
      · rintro ⟨h1, h2⟩
        exact ⟨st', rfl, h1, h2⟩
      · rintro ⟨st'', heq, h1, h2⟩
        cases heq
        exact ⟨h1, h2⟩
  · intro st' hst' hne
    rw [isFileCached, hset, hst']
    simp only [Bool.and_eq_false_iff, beq_eq_false_iff_ne, ne_eq]
    right
    exact hne
  · intro st' hst' hne
    rw [isFileCached, hset, hst']
    simp only [Bool.and_eq_false_iff, beq_eq_false_iff_ne, ne_eq]
    left
    exact hne
  · intro hnone
    rw [isFileCached, hset, hnone]
  · intro version configHash version' configHash' entries hne
    refine ⟨?_, rfl⟩
    rw [createCacheData]
    have : ¬ ((some version = some version') ∧ (some configHash = some configHash')) := by
      intro ⟨h1, h2⟩
      exact hne (by simp_all)
    simp only [this, if_neg]
    simp [this]

/-- Witness for C4 at a concrete store and filesystem. -/
theorem cache_hit_miss_determinism_witness :
    ((fun _ : List Char => some (StatV.mk 10 20)) "a".data = some (StatV.mk 10 20)) ∧
    ((isFileCached (markClean [] (fun _ => some (StatV.mk 10 20)) "a".data)
        (fun _ => some (StatV.mk 10 20)) "a".data = true ↔
      ∃ st', (fun _ : List Char => some (StatV.mk 10 20)) "a".data = some st' ∧
        st'.mtimeMs = (StatV.mk 10 20).mtimeMs ∧ st'.size = (StatV.mk 10 20).size) ∧
    (∀ st', (fun _ : List Char => some (StatV.mk 10 20)) "a".data = some st' →
      st'.size ≠ (StatV.mk 10 20).size →
      isFileCached (markClean [] (fun _ => some (StatV.mk 10 20)) "a".data)
        (fun _ => some (StatV.mk 10 20)) "a".data = false) ∧
    (∀ st', (fun _ : List Char => some (StatV.mk 10 20)) "a".data = some st' →
      st'.mtimeMs ≠ (StatV.mk 10 20).mtimeMs →
      isFileCached (markClean [] (fun _ => some (StatV.mk 10 20)) "a".data)
        (fun _ => some (StatV.mk 10 20)) "a".data = false) ∧
    ((fun _ : List Char => some (StatV.mk 10 20)) "a".data = none →
      isFileCached (markClean [] (fun _ => some (StatV.mk 10 20)) "a".data)
        (fun _ => some (StatV.mk 10 20)) "a".data = false) ∧
    (∀ version configHash version' configHash' entries,
      (version, configHash) ≠ (version', configHash') →
      (createCacheData version' configHash'
          (.parsed ⟨some version, some configHash, .entries entries⟩)).files =
        .entries [] ∧
      isFileCached [] (fun _ => some (StatV.mk 10 20)) "a".data = false)) :=
  ⟨rfl, cache_hit_miss_determinism [] _ _ "a".data (StatV.mk 10 20) rfl⟩

/-! ### C5: load degradation

The code adopts a parsed snapshot verbatim whenever its stored scope matches:
it does NOT validate the structure of the `files` field, so a matching
snapshot with a malformed `files` value does not yield an empty files map. -/

/-- **C5 counterexample**: a readable, parseable snapshot whose `version` and
`configHash` equal the requested scope but whose `files` value is not a map
is adopted verbatim: the in-memory store's `files` is NOT the empty map the
claim requires for structurally invalid content. -/
theorem createCache_invalid_files_counterexample :
    (createCacheData "0.1.0".data "abc".data
        (.parsed ⟨some "0.1.0".data, some "abc".data, .invalid⟩)).files =
      RawFiles.invalid ∧
    RawFiles.invalid ≠ RawFiles.entries [] := by
  constructor
  · rw [createCacheData]
    simp
  · decide

/-- **C5 amended**: `createCache` never throws (the load is a total function:
all exception paths are caught), and for an absent, unreadable, or malformed
snapshot, and for any parsed snapshot whose stored `version`/`configHash`
do not both equal the requested scope (including missing or non-string
fields), the store starts with an empty files map.  A parsed snapshot whose
stored scope matches is adopted verbatim — its `files` value is taken
without structural validation (so only in that case, and only when the
snapshot is actually well-formed, is the store populated with its entries). -/
theorem createCache_load_degradation (version configHash : List Char) :
    (∀ persisted : Persisted,
      (∀ raw, persisted = .parsed raw →
        ¬ (raw.version = some version ∧ raw.configHash = some configHash)) →
      (createCacheData version configHash persisted).files = .entries []) ∧
    (∀ raw : RawCacheData,
      raw.version = some version → raw.configHash = some configHash →
      (createCacheData version configHash (.parsed raw)).files = raw.files) := by
  constructor
  · intro persisted h
    cases persisted with
    | absent => rfl
    | unreadable => rfl
    | parsed raw =>
      rw [createCacheData]
      simp [h raw rfl]
  · intro raw h1 h2
    rw [createCacheData]
    simp [h1, h2]

/-- Witness for the amended C5: an absent snapshot and a matching parsed
snapshot, at a concrete scope. -/
theorem createCache_load_degradation_witness :
    ((∀ raw, Persisted.absent = .parsed raw →
        ¬ (raw.version = some "1".data ∧ raw.configHash = some "h".data)) ∧
      (createCacheData "1".data "h".data .absent).files = .entries []) ∧
    ((RawCacheData.mk (some "1".data) (some "h".data)
        (.entries [("f".data, ⟨3, 4⟩)])).version = some "1".data ∧
      (createCacheData "1".data "h".data
          (.parsed ⟨some "1".data, some "h".data, .entries [("f".data, ⟨3, 4⟩)]⟩)).files =
        (RawCacheData.mk (some "1".data) (some "h".data)
          (.entries [("f".data, ⟨3, 4⟩)])).files) :=
  ⟨⟨fun raw h => by simp at h,
      (createCache_load_degradation "1".data "h".data).1 .absent
        (fun raw h => by simp at h)⟩,
    ⟨rfl,
      (createCache_load_degradation "1".data "h".data).2
        ⟨some "1".data, some "h".data, .entries [("f".data, ⟨3, 4⟩)]⟩ rfl rfl⟩⟩

/-! ## Section 3: the run pipeline's cache updates (src/cli.ts, `run`)

We model the cache-affecting control flow of `run` (lines 257-340):

* pre-compute `previouslyCachedFiles` (the files for which `isFileCached`
  is true against the loaded store);
* for each pass (`kind`) and each non-precached file: compute diagnostics
  and, when there is at least one and `--fix` is on, write the fix and call
  `cache.markClean(filePath)` (line 295);
* after all passes, `markClean` every file that accumulated no diagnostics
  and was not previously cached (lines 331-338).

The diagnostic counts are abstracted by `diags : PassKind → path → Nat`:
they stand for whatever `findUnsortedClasses` / `findNonCanonicalClasses`
returned on the file's on-disk content when the pass processed it (in fix
mode that content reflects earlier passes' fixes).  `stat` gives the stat a
`markClean` call observes; the entry's concrete value does not affect which
files end up with an entry, so a per-path constant is a faithful
abstraction of "the stat at marking time". -/

/-- The pass kinds `run` is invoked with (`format`, `lint`). -/
inductive PassKind
  | format
  | lint
deriving DecidableEq, Repr

/-- The inputs of one `run` that determine its cache updates. -/
structure RunEnv where
  files : List (List Char)
  kinds : List PassKind
  diags : PassKind → List Char → Nat
  fix : Bool
  stat : List Char → Option StatV

/-- `previouslyCachedFiles` (src/cli.ts lines 258-263). -/
def previouslyCached (env : RunEnv) (files0 : List (List Char × StatV)) :
    List (List Char) :=
  env.files.filter fun p => isFileCached files0 env.stat p

/-- `filesWithIssues.has(p)` at the end of the pass loop: `p` was processed
(not previously cached) and some pass produced at least one diagnostic. -/
def fileHasIssues (env : RunEnv) (pre : List (List Char)) (p : List Char) :
    Bool :=
  !(pre.contains p) && env.kinds.any fun k => decide (0 < env.diags k p)

/-- One pass body for one file (src/cli.ts lines 273-300), restricted to its
cache effect: skip precached files; when diagnostics exist and `--fix` is on,
`cache.markClean(filePath)` after writing the fix. -/
def passFileStep (env : RunEnv) (pre : List (List Char)) (kind : PassKind)
    (fs : List (List Char × StatV)) (p : List Char) :
    List (List Char × StatV) :=
  if pre.contains p then fs
  else if 0 < env.diags kind p then
    (if env.fix then markClean fs env.stat p else fs)
  else fs

/-- The final marking loop (src/cli.ts lines 331-338). -/
def finalMarkStep (env : RunEnv) (pre : List (List Char))
    (fs : List (List Char × StatV)) (p : List Char) :
    List (List Char × StatV) :=
  if !(fileHasIssues env pre p) && !(pre.contains p) then
    markClean fs env.stat p
  else fs

/-- The whole run's effect on the cache's `files` map. -/
def runCacheUpdates (env : RunEnv) (files0 : List (List Char × StatV)) :
    List (List Char × StatV) :=
  let pre := previouslyCached env files0
  let afterPasses := env.kinds.foldl
    (fun fs kind => env.files.foldl (passFileStep env pre kind) fs) files0
  env.files.foldl (finalMarkStep env pre) afterPasses

theorem foldl_preserve {α β : Type} (P : α → Prop) (step : α → β → α)
    (l : List β) (a : α) (hstep : ∀ a b, b ∈ l → P a → P (step a b))
    (ha : P a) : P (l.foldl step a) := by
  induction l generalizing a with
  | nil => exact ha
  | cons b l ih =>
    exact ih _ (fun a c hc h => hstep a c (List.mem_cons_of_mem b hc) h)
      (hstep a b (List.mem_cons_self b l) ha)

theorem foldl_establish {α β : Type} (P : α → Prop) (step : α → β → α)
    (l : List β) (a : α) (b₀ : β) (hb₀ : b₀ ∈ l)
    (hset : ∀ a, P (step a b₀))
    (hstep : ∀ a b, b ∈ l → P a → P (step a b)) : P (l.foldl step a) := by
  obtain ⟨l₁, l₂, rfl⟩ := List.append_of_mem hb₀
  rw [List.foldl_append]
  rw [List.foldl_cons]
  refine foldl_preserve P step l₂ _ ?_ (hset _)
  intro a b hb
  exact hstep a b (by simp [hb])

theorem markClean_getEntry_stable (fs : List (List Char × StatV))
    (stat : List Char → Option StatV) (p q : List Char) (st : StatV)
    (hstat : stat p = some st) (h : getEntry fs p = some st) :
    getEntry (markClean fs stat q) p = some st := by
  by_cases hq : q = p
  · subst hq
    rw [markClean, hstat]
    exact getEntry_setEntry_self fs q st
  · rw [markClean]
    cases hsq : stat q with
    | none => exact h
    | some st' => rw [getEntry_setEntry_ne fs p q st' hq]; exact h

theorem markClean_getEntry_ne (fs : List (List Char × StatV))
    (stat : List Char → Option StatV) (p q : List Char) (hq : q ≠ p) :
    getEntry (markClean fs stat q) p = getEntry fs p := by
  rw [markClean]
  cases hsq : stat q with
  | none => rfl
  | some st' => exact getEntry_setEntry_ne fs p q st' hq

/-- **C2 counterexample**: with `--fix` on, a file that produced a diagnostic
IS marked clean — src/cli.ts line 295 calls `cache.markClean(filePath)` right
after writing the fix — so after the run it holds a valid cache entry,
contradicting the claim that diagnosed files are left without one whether or
not `--fix` was requested. -/
theorem fix_marks_diagnosed_file_clean_counterexample :
    isFileCached
      (runCacheUpdates
        ⟨["a".data], [PassKind.format], fun _ _ => 1, true,
          fun _ => some ⟨5, 7⟩⟩ [])
      (fun _ => some ⟨5, 7⟩) "a".data = true := by decide

/-- **C2 amended**.  For a file `p` in the run's file set that was not a
pre-existing cache hit:
* in check mode (`fix = false`), if some pass produced at least one
  diagnostic for `p`, its cache entry is left exactly as it was and it is
  still not a valid hit (so it will be re-analyzed next run);
* in fix mode (`fix = true`), a file with diagnostics is marked clean right
  after its fix is written: it ends the run with a valid cache entry;
* in either mode, a file that accumulated zero diagnostics across all passes
  is marked clean at the end of the run. -/
theorem run_cache_marking (env : RunEnv) (files0 : List (List Char × StatV))
    (p : List Char) (hp : p ∈ env.files)
    (hpre : isFileCached files0 env.stat p = false) :
    (env.fix = false → (∃ k ∈ env.kinds, 0 < env.diags k p) →
      getEntry (runCacheUpdates env files0) p = getEntry files0 p ∧
      isFileCached (runCacheUpdates env files0) env.stat p = false) ∧
    (env.fix = true → (∃ k ∈ env.kinds, 0 < env.diags k p) →
      ∀ st, env.stat p = some st →
      getEntry (runCacheUpdates env files0) p = some st ∧
      isFileCached (runCacheUpdates env files0) env.stat p = true) ∧
    ((∀ k ∈ env.kinds, env.diags k p = 0) →
      ∀ st, env.stat p = some st →
      getEntry (runCacheUpdates env files0) p = some st ∧
      isFileCached (runCacheUpdates env files0) env.stat p = true) := by
  have hnotpre : p ∉ previouslyCached env files0 := by
    simp [previouslyCached, List.mem_filter, hpre]
  have hcont : (previouslyCached env files0).contains p = false := by
    simpa using hnotpre
  refine ⟨?_, ?_, ?_⟩
  · -- check mode, diagnosed: entry untouched, still a miss
    intro hfix hissues
    have hhas : fileHasIssues env (previouslyCached env files0) p = true := by
      obtain ⟨k, hk, hdk⟩ := hissues
      simp only [fileHasIssues, hcont, Bool.not_false, Bool.true_and,
        List.any_eq_true, decide_eq_true_eq]
      exact ⟨k, hk, hdk⟩
    have hkeep : getEntry (runCacheUpdates env files0) p = getEntry files0 p := by
      unfold runCacheUpdates
      refine foldl_preserve (fun fs => getEntry fs p = getEntry files0 p) _ _ _ ?_ ?_
      · intro fs q _ h
        unfold finalMarkStep
        by_cases hq : q = p
        · subst hq
          simp [hhas]
          exact h
        · split
          · rw [markClean_getEntry_ne fs env.stat p q hq]; exact h
          · exact h
      · refine foldl_preserve (fun fs => getEntry fs p = getEntry files0 p) _ _ _ ?_ rfl
        intro fs kind _ h
        refine foldl_preserve (fun fs => getEntry fs p = getEntry files0 p) _ _ _ ?_ h
        intro fs q _ h
        unfold passFileStep
        split
        · exact h
        · split
          · rw [hfix]
            simp only [Bool.false_eq_true, if_false]
            exact h
          · exact h
    exact ⟨hkeep, by rw [isFileCached_congr _ files0 env.stat p hkeep]; exact hpre⟩
  · -- fix mode, diagnosed: marked clean after the fix
    intro hfix hissues st hstat
    obtain ⟨k₀, hk₀, hd₀⟩ := hissues
    have hstable : ∀ fs q kind, getEntry fs p = some st →
        getEntry (passFileStep env (previouslyCached env files0) kind fs q) p = some st := by
      intro fs q kind h
      unfold passFileStep
      by_cases h1 : (previouslyCached env files0).contains q = true
      · rw [if_pos h1]; exact h
      · rw [if_neg h1]
        by_cases h2 : 0 < env.diags kind q
        · rw [if_pos h2]
          by_cases h3 : env.fix = true
          · rw [if_pos h3]
            exact markClean_getEntry_stable fs env.stat p q st hstat h
          · rw [if_neg h3]; exact h
        · rw [if_neg h2]; exact h
    have hset : getEntry (runCacheUpdates env files0) p = some st := by
      unfold runCacheUpdates
      refine foldl_preserve (fun fs => getEntry fs p = some st) _ _ _ ?_ ?_
      · intro fs q _ h
        unfold finalMarkStep
        split
        · exact markClean_getEntry_stable fs env.stat p q st hstat h
        · exact h
      · refine foldl_establish (fun fs => getEntry fs p = some st) _ _ _ k₀ hk₀ ?_ ?_
        · intro fs
          refine foldl_establish (fun fs => getEntry fs p = some st) _ _ _ p hp ?_ ?_
          · intro fs
            unfold passFileStep
            rw [hcont]
            simp only [Bool.false_eq_true, if_false, hd₀, if_pos, hfix, if_true]
            rw [markClean, hstat]
            exact getEntry_setEntry_self fs p st
          · intro fs q _ h
            exact hstable fs q k₀ h
        · intro fs kind _ h
          refine foldl_preserve (fun fs => getEntry fs p = some st) _ _ _ ?_ h
          intro fs q _ h
          exact hstable fs q kind h
    refine ⟨hset, ?_⟩
    rw [isFileCached, hset, hstat]
    simp
  · -- zero diagnostics: marked clean in the final loop
    intro hzero st hstat
    have hnohas : fileHasIssues env (previouslyCached env files0) p = false := by
      simp only [fileHasIssues, hcont, Bool.not_false, Bool.true_and,
        List.any_eq_false, decide_eq_true_eq]
      intro k hk
      simp [hzero k hk]
    have hmid : getEntry (env.kinds.foldl
        (fun fs kind => env.files.foldl
          (passFileStep env (previouslyCached env files0) kind) fs) files0) p =
        getEntry files0 p := by
      refine foldl_preserve (fun fs => getEntry fs p = getEntry files0 p) _ _ _ ?_ rfl
      intro fs kind hkind h
      refine foldl_preserve (fun fs => getEntry fs p = getEntry files0 p) _ _ _ ?_ h
      intro fs q _ h
      unfold passFileStep
      by_cases hq : q = p
      · subst hq
        rw [hcont]
        simp only [Bool.false_eq_true, if_false, hzero kind hkind]
        simp
        exact h
      · split
        · exact h
        · split
          · split
            · rw [markClean_getEntry_ne fs env.stat p q hq]; exact h
            · exact h
          · exact h
    have hset : getEntry (runCacheUpdates env files0) p = some st := by
      unfold runCacheUpdates
      refine foldl_establish (fun fs => getEntry fs p = some st) _ _ _ p hp ?_ ?_
      · intro fs
        unfold finalMarkStep
        rw [hnohas, hcont]
        simp only [Bool.not_false, Bool.and_self, if_true]
        rw [markClean, hstat]
        exact getEntry_setEntry_self fs p st
      · intro fs q _ h
        unfold finalMarkStep
        split
        · exact markClean_getEntry_stable fs env.stat p q st hstat h
        · exact h
    refine ⟨hset, ?_⟩
    rw [isFileCached, hset, hstat]
    simp

/-- Witness for the amended C2: one file, one `format` pass with one
diagnostic, fix mode off/on is exercised through the three conjuncts at a
concrete environment with `diags = 1`. -/
theorem run_cache_marking_witness :
    ("a".data ∈ ["a".data] ∧
      isFileCached [] (fun _ => some (StatV.mk 5 7)) "a".data = false) ∧
    ((false = false → (∃ k ∈ [PassKind.format],
        0 < (fun (_ : PassKind) (_ : List Char) => 1) k "a".data) →
      getEntry (runCacheUpdates
        ⟨["a".data], [PassKind.format], fun _ _ => 1, false,
          fun _ => some ⟨5, 7⟩⟩ []) "a".data = getEntry [] "a".data ∧
      isFileCached (runCacheUpdates
        ⟨["a".data], [PassKind.format], fun _ _ => 1, false,
          fun _ => some ⟨5, 7⟩⟩ []) (fun _ => some ⟨5, 7⟩) "a".data = false) ∧
    (false = true → (∃ k ∈ [PassKind.format],
        0 < (fun (_ : PassKind) (_ : List Char) => 1) k "a".data) →
      ∀ st, (fun _ : List Char => some (StatV.mk 5 7)) "a".data = some st →
      getEntry (runCacheUpdates
        ⟨["a".data], [PassKind.format], fun _ _ => 1, false,
          fun _ => some ⟨5, 7⟩⟩ []) "a".data = some st ∧
      isFileCached (runCacheUpdates
        ⟨["a".data], [PassKind.format], fun _ _ => 1, false,
          fun _ => some ⟨5, 7⟩⟩ []) (fun _ => some ⟨5, 7⟩) "a".data = true) ∧
    ((∀ k ∈ [PassKind.format],
        (fun (_ : PassKind) (_ : List Char) => 1) k "a".data = 0) →
      ∀ st, (fun _ : List Char => some (StatV.mk 5 7)) "a".data = some st →
      getEntry (runCacheUpdates
        ⟨["a".data], [PassKind.format], fun _ _ => 1, false,
          fun _ => some ⟨5, 7⟩⟩ []) "a".data = some st ∧
      isFileCached (runCacheUpdates
        ⟨["a".data], [PassKind.format], fun _ _ => 1, false,
          fun _ => some ⟨5, 7⟩⟩ []) (fun _ => some ⟨5, 7⟩) "a".data = true)) :=
  ⟨⟨by decide, by decide⟩,
    run_cache_marking
      ⟨["a".data], [PassKind.format], fun _ _ => 1, false, fun _ => some ⟨5, 7⟩⟩
      [] "a".data (by decide) (by decide)⟩

/-! ## Section 4: configuration hashing (src/config.ts)

`hashConfig(config, cssContent)` feeds
`JSON.stringify({css, rem, collapse, strategy}) + cssContent` to
`crypto.createHash("sha256")` and keeps 16 hex digits.  The SHA-256 hex
digest is external (`node:crypto`), so it is a parameter `sha256hex16`; the
data construction is embedded.  `rem` is a JS number: the code only embeds
it in the JSON text and the claims only compare configurations for equality,
so `Int` (whose decimal rendering matches JS for integral values) is a
faithful carrier. -/

/-- `ResolvedConfig` from `src/config.ts`. -/
structure ResolvedConfig where
  css : Option (List Char)
  rem : Int
  collapse : Bool
  strategy : List Char
  cache : Bool
  fix : Bool
  json : Bool
  quiet : Bool
  verbose : Bool
deriving DecidableEq, Repr

def hexDigit (n : Nat) : Char :=
  if n < 10 then Char.ofNat (48 + n) else Char.ofNat (87 + n)

/-- `JSON.stringify` escaping for one character inside a string literal. -/
def jsonEscapeChar (c : Char) : List Char :=
  if c = '"' then ['\\', '"']
  else if c = '\\' then ['\\', '\\']
  else if c = Char.ofNat 8 then ['\\', 'b']
  else if c = Char.ofNat 9 then ['\\', 't']
  else if c = Char.ofNat 10 then ['\\', 'n']
  else if c = Char.ofNat 12 then ['\\', 'f']
  else if c = Char.ofNat 13 then ['\\', 'r']
  else if c.toNat < 32 then
    ['\\', 'u', '0', '0', hexDigit (c.toNat / 16), hexDigit (c.toNat % 16)]
  else [c]

/-- `JSON.stringify` of a string value. -/
def jsonString (s : List Char) : List Char :=
  '"' :: (s.map jsonEscapeChar).flatten ++ ['"']

def boolChars (b : Bool) : List Char :=
  if b then "true".data else "false".data

/-- `JSON.stringify({css: config.css, rem: config.rem, collapse:
config.collapse, strategy: config.strategy})`: keys in insertion order, the
`css` key omitted when the value is `undefined`. -/
def jsonStringifyConfigSubset (config : ResolvedConfig) : List Char :=
  [Char.ofNat 123] ++
    (match config.css with
      | none => []
      | some css => jsonString "css".data ++ [':'] ++ jsonString css ++ [',']) ++
    jsonString "rem".data ++ [':'] ++ (toString config.rem).data ++ [','] ++
    jsonString "collapse".data ++ [':'] ++ boolChars config.collapse ++ [','] ++
    jsonString "strategy".data ++ [':'] ++ jsonString config.strategy ++
    [Char.ofNat 125]

/-- The data hashed by `hashConfig`: the JSON text of the semantic subset
followed by the full CSS content. -/
def hashConfigData (config : ResolvedConfig) (cssContent : List Char) :
    List Char :=
  jsonStringifyConfigSubset config ++ cssContent

/-- `hashConfig` itself: `sha256hex16` models
`crypto.createHash("sha256").update(data).digest("hex").slice(0, 16)`. -/
def hashConfig (sha256hex16 : List Char → List Char)
    (config : ResolvedConfig) (cssContent : List Char) : List Char :=
  sha256hex16 (hashConfigData config cssContent)

/-- **C6** (config-hash noninterference).  Two resolved configurations that
agree on `css`, `rem`, `collapse` and `strategy` produce the same
`hashConfig` value for every CSS content and every hash function — in
particular however they differ in the display-only options `fix`, `json`,
`quiet`, `verbose` (and `cache`).  Conversely the hashed data contains the
full CSS content: different stylesheet texts always give different hashed
data. -/
theorem hashConfig_display_noninterference
    (sha256hex16 : List Char → List Char) (c1 c2 : ResolvedConfig)
    (cssContent cssContent' : List Char)
    (hcss : c1.css = c2.css) (hrem : c1.rem = c2.rem)
    (hcol : c1.collapse = c2.collapse) (hstrat : c1.strategy = c2.strategy) :
    hashConfig sha256hex16 c1 cssContent = hashConfig sha256hex16 c2 cssContent ∧
    (cssContent ≠ cssContent' →
      hashConfigData c1 cssContent ≠ hashConfigData c1 cssContent') := by
  constructor
  · unfold hashConfig hashConfigData jsonStringifyConfigSubset
    rw [hcss, hrem, hcol, hstrat]
  · intro hne heq
    exact hne (List.append_cancel_left heq)

/-- Witness for C6: configurations agreeing on the semantic quadruple but
differing in all four display options, and two different CSS texts. -/
theorem hashConfig_display_noninterference_witness :
    ((ResolvedConfig.mk none 16 false "tailwind".data false false false false false).css =
        (ResolvedConfig.mk none 16 false "tailwind".data true true true true true).css ∧
      (ResolvedConfig.mk none 16 false "tailwind".data false false false false false).rem =
        (ResolvedConfig.mk none 16 false "tailwind".data true true true true true).rem) ∧
    (hashConfig (fun d => d)
        (ResolvedConfig.mk none 16 false "tailwind".data false false false false false)
        "@import \"tailwindcss\";".data =
      hashConfig (fun d => d)
        (ResolvedConfig.mk none 16 false "tailwind".data true true true true true)
        "@import \"tailwindcss\";".data ∧
      ("@import \"tailwindcss\";".data ≠ "body".data →
        hashConfigData
            (ResolvedConfig.mk none 16 false "tailwind".data false false false false false)
            "@import \"tailwindcss\";".data ≠
          hashConfigData
            (ResolvedConfig.mk none 16 false "tailwind".data false false false false false)
            "body".data)) :=
  ⟨⟨rfl, rfl⟩,
    hashConfig_display_noninterference (fun d => d) _ _ _ _ rfl rfl rfl rfl⟩

/-! ## Section 5: the lint pass (src/canonicalize.ts)

`findNonCanonicalClasses` walks the candidates produced by the external oxide
scanner (`extractCandidatesWithPositions`, a parameter here) and calls the
external design system (`canonicalizeCandidates`, also a parameter), emitting
a diagnostic when the classifier proposes a different, non-empty string.
Note the call site (canonicalize.ts lines 57-60) passes `collapse: false`
literally — `options.collapse` is never read. -/

/-- The options object of one `canonicalizeCandidates` call. -/
structure CanonCallOptions where
  rem : Option Int
  collapse : Bool
deriving DecidableEq, Repr

/-- `CanonicalizeOptions` as received by `findNonCanonicalClasses`
(`rem?: number; collapse?: boolean`). -/
structure CanonicalizeOptions where
  rem : Option Int
  collapse : Option Bool
deriving DecidableEq, Repr

/-- The design-system facet the lint pass uses (external collaborator). -/
structure DesignSystemCanon where
  canonicalizeCandidates : List (List Char) → CanonCallOptions → List (List Char)

/-- `offsetToLineColumn`: count newlines over `i < offset ∧ i < length`,
1-based, column resets after a newline.  (Identical copies live in
src/canonicalize.ts and src/sorter.ts.) -/
def offsetToLineColumnAux : List Char → Nat → Nat → Nat → Nat × Nat
  | _, 0, line, column => (line, column)
  | [], _ + 1, line, column => (line, column)
  | c :: rest, n + 1, line, column =>
    if c = Char.ofNat 10 then offsetToLineColumnAux rest n (line + 1) 1
    else offsetToLineColumnAux rest n line (column + 1)

def offsetToLineColumn (content : List Char) (offset : Nat) : Nat × Nat :=
  offsetToLineColumnAux content offset 1 1

/-- `getLineContent`: the full line containing `offset` (walk left and right
to the enclosing newlines). -/
def getLineContent (content : List Char) (offset : Nat) : List Char :=
  ((content.take offset).reverse.takeWhile fun c => ¬ (c = Char.ofNat 10)).reverse ++
    ((content.drop offset).takeWhile fun c => ¬ (c = Char.ofNat 10))

/-- `findNonCanonicalClasses` from `src/canonicalize.ts`: for each candidate
`(rawCandidate, start)`, destructure the head of
`canonicalizeCandidates([rawCandidate], {rem: options.rem, collapse: false})`
and emit a diagnostic when it is truthy and differs from the candidate. -/
def findNonCanonicalClasses (designSystem : DesignSystemCanon)
    (extract : List Char → List Char → List (List Char × Nat))
    (content : List Char) (extension : List Char) (filePath : List Char)
    (options : CanonicalizeOptions) : List Diagnostic :=
  (extract content extension).filterMap fun cand =>
    match (designSystem.canonicalizeCandidates [cand.1]
        ⟨options.rem, false⟩).head? with
    | none => none
    | some canonical =>
      if canonical ≠ [] ∧ canonical ≠ cand.1 then
        some ⟨filePath, (offsetToLineColumn content cand.2).1,
          (offsetToLineColumn content cand.2).2, cand.2, cand.1.length,
          cand.1, canonical, getLineContent content cand.2⟩
      else none

/-- **C7**: contrary to the claim, `options.collapse` is NOT passed through:
the call site hard-codes `collapse: false`, so for every design system,
candidate extractor, content, and `rem`, the diagnostics are identical for
every value of `options.collapse` — the option can never change which
diagnostics are produced. -/
theorem findNonCanonicalClasses_ignores_collapse
    (designSystem : DesignSystemCanon)
    (extract : List Char → List Char → List (List Char × Nat))
    (content extension filePath : List Char) (rem : Option Int)
    (b₁ b₂ : Option Bool) :
    findNonCanonicalClasses designSystem extract content extension filePath
        ⟨rem, b₁⟩ =
      findNonCanonicalClasses designSystem extract content extension filePath
        ⟨rem, b₂⟩ := rfl

/-! ## Section 6: the sort pass (src/sorter.ts)

The pass scans `content` with the sticky regex
`/class(?:Name)?\s*=\s*(?:"([^"]*)"|'([^']*)')/g` and, per attribute, splits
the captured value on `\s+`, sorts the tokens with the selected strategy, and
emits a diagnostic when the single-space joins differ.

The regex is embedded as a direct scanner:

* `parsePre` parses `class(?:Name)?\s*=\s*` plus the opening quote at the
  head of a suffix.  Committing to `Name` when the next four characters are
  `Name` is equivalent to the regex's backtracking: if `Name` is present but
  the rest fails, the backtracked branch must parse `\s*=` starting at `N`,
  which fails immediately.
* the value is `[^q]*` up to the next occurrence of the opening quote
  character `q`; the match fails if `q` never occurs again (the regex engine
  finds no closing quote).  The alternation tries the `"` branch first, but
  since the branch is selected by the character at the quote position, at
  most one branch can apply.
* `exec` with `/g` finds the leftmost match from `lastIndex` and then resumes
  right after it: `scanAttrsAux` tries each successive position.
* the TS code computes the value offset as
  `match.index + match[0].indexOf(quoteChar) + 1`: the text before the
  opening quote consists of `class`/`Name` letters, whitespace and `=`, so
  the first occurrence of the quote character is the opening quote and the
  offset is `match.index + preLen`. -/

/-- The ECMAScript `\s` character class. -/
def isJsWs (c : Char) : Bool :=
  c = Char.ofNat 9 || c = Char.ofNat 10 || c = Char.ofNat 11 ||
  c = Char.ofNat 12 || c = Char.ofNat 13 || c = ' ' ||
  c = Char.ofNat 160 || c = Char.ofNat 5760 ||
  (8192 ≤ c.toNat && c.toNat ≤ 8202) ||
  c = Char.ofNat 8232 || c = Char.ofNat 8233 || c = Char.ofNat 8239 ||
  c = Char.ofNat 8287 || c = Char.ofNat 12288 || c = Char.ofNat 65279

/-- The double-quote character. -/
def dquote : Char := Char.ofNat 34

/-- The single-quote character. -/
def squote : Char := Char.ofNat 39

/-- `classValue.split(/\s+/).filter(Boolean)`: the maximal non-whitespace
runs, in order (`split` may yield leading/trailing empty strings, which
`filter(Boolean)` removes). -/
def wordsAux : List Char → List Char → List (List Char)
  | [], acc => if acc = [] then [] else [acc.reverse]
  | c :: rest, acc =>
    if isJsWs c then
      if acc = [] then wordsAux rest [] else acc.reverse :: wordsAux rest []
    else wordsAux rest (c :: acc)

def words (s : List Char) : List (List Char) := wordsAux s []

/-- `classes.join(' ')`. -/
def joinSpace : List (List Char) → List Char
  | [] => []
  | [t] => t
  | t :: ts => t ++ ' ' :: joinSpace ts

/-- The design-system facet the sort pass uses, plus the string collation it
relies on.  `getClassOrder` is elementwise: the TS
`designSystem.getClassOrder(classes)` returns one `[cls, order]` pair per
input class, each order depending only on the class name (`bigint | null`,
carried as `Option Int`).  `localeCompare` models
`String.prototype.localeCompare`. -/
structure DesignSystemSort where
  getClassOrder : List Char → Option Int
  localeCompare : List Char → List Char → Int

/-- `sortTailwind` (src/sorter.ts lines 88-109): partition into unknown
(null order) and known classes preserving order, stable-sort the known pairs
by their bigint key (`a[1] < b[1] ? -1 : a[1] > b[1] ? 1 : 0`), and put the
unknown classes first. -/
def sortTailwind (ds : DesignSystemSort) (classes : List (List Char)) :
    List (List Char) :=
  ((classes.map fun cls => (cls, ds.getClassOrder cls)).filter fun p =>
      p.2 = none).map Prod.fst ++
    (List.mergeSort
      ((classes.map fun cls => (cls, ds.getClassOrder cls)).filterMap fun p =>
        match p.2 with
        | none => none
        | some o => some (p.1, o))
      fun a b => a.2 ≤ b.2).map Prod.fst

/-- `sortAlphabetical` (src/sorter.ts lines 84-86):
`[...classes].sort((a, b) => a.localeCompare(b))`. -/
def sortAlphabetical (ds : DesignSystemSort) (classes : List (List Char)) :
    List (List Char) :=
  List.mergeSort classes fun a b => ds.localeCompare a b ≤ 0

inductive SortStrategy
  | tailwind
  | alphabetical
deriving DecidableEq, Repr

/-- `options.strategy ?? 'tailwind'` and the strategy dispatch. -/
def sortClasses (ds : DesignSystemSort) (strategy : SortStrategy)
    (classes : List (List Char)) : List (List Char) :=
  match strategy with
  | .alphabetical => sortAlphabetical ds classes
  | .tailwind => sortTailwind ds classes

/-- `SortOptions` (`strategy?: SortStrategy`). -/
structure SortOptions where
  strategy : Option SortStrategy
deriving DecidableEq, Repr

/-- Parse `\s*=\s*["']` at the head of `w`: on success, the number of
characters consumed (through the opening quote) and the quote character. -/
def parseEq (w : List Char) : Option (Nat × Char) :=
  match w.drop (w.takeWhile isJsWs).length with
  | '=' :: s2 =>
    match s2.drop (s2.takeWhile isJsWs).length with
    | q :: _ =>
      if q = dquote ∨ q = squote then
        some ((w.takeWhile isJsWs).length + 1 + (s2.takeWhile isJsWs).length + 1, q)
      else none
    | [] => none
  | _ => none

/-- Parse `class(?:Name)?\s*=\s*["']` at the head of `s`: on success,
the number of characters consumed (through the opening quote) and the quote
character. -/
def parsePre (s : List Char) : Option (Nat × Char) :=
  if s.take 5 = "class".data then
    if (s.drop 5).take 4 = "Name".data then
      (parseEq (s.drop 9)).map fun r => (9 + r.1, r.2)
    else
      (parseEq (s.drop 5)).map fun r => (5 + r.1, r.2)
  else none

/-- One regex match at the head of a suffix: `preLen` characters through the
opening quote, the quote character, and the captured value (`[^q]*`).  The
match succeeds only if a closing quote exists (`preLen + |value| < |s|`). -/
structure AttrMatch where
  preLen : Nat
  q : Char
  value : List Char
deriving DecidableEq, Repr

/-- The length of the full match (`match[0].length`). -/
def AttrMatch.len (m : AttrMatch) : Nat := m.preLen + m.value.length + 1

/-- The character class `[^q]` of the value capture, as a Boolean predicate. -/
def notQuote (q c : Char) : Bool := ¬ (c = q)

def matchAt (s : List Char) : Option AttrMatch :=
  match parsePre s with
  | none => none
  | some (n, q) =>
    if n + ((s.drop n).takeWhile (notQuote q)).length < s.length then
      some ⟨n, q, (s.drop n).takeWhile (notQuote q)⟩
    else none

/-- One occurrence of a class attribute: the absolute offset of its value
(just after the opening quote) and the captured value. -/
structure AttrOcc where
  valueOffset : Nat
  value : List Char
deriving DecidableEq, Repr

/-- The `exec` loop: leftmost match from the current position, resuming after
each match.  The fuel argument bounds the number of steps; every step
consumes at least one character, so `s.length` suffices. -/
def scanAttrsAux : Nat → List Char → Nat → List AttrOcc
  | 0, _, _ => []
  | fuel + 1, s, pos =>
    match matchAt s with
    | some m =>
      ⟨pos + m.preLen, m.value⟩ :: scanAttrsAux fuel (s.drop m.len) (pos + m.len)
    | none =>
      match s with
      | [] => []
      | _ :: t => scanAttrsAux fuel t (pos + 1)

def scanAttrs (content : List Char) : List AttrOcc :=
  scanAttrsAux content.length content 0

/-- The per-attribute body of the `while` loop in `findUnsortedClasses`
(src/sorter.ts lines 50-79). -/
def diagOfAttr (ds : DesignSystemSort) (strategy : SortStrategy)
    (content filePath : List Char) (occ : AttrOcc) : Option Diagnostic :=
  if occ.value = [] then none
  else if (words occ.value).length ≤ 1 then none
  else if joinSpace (sortClasses ds strategy (words occ.value)) ≠
      joinSpace (words occ.value) then
    some ⟨filePath, (offsetToLineColumn content occ.valueOffset).1,
      (offsetToLineColumn content occ.valueOffset).2, occ.valueOffset,
      occ.value.length, occ.value,
      joinSpace (sortClasses ds strategy (words occ.value)),
      getLineContent content occ.valueOffset⟩
  else none

/-- `findUnsortedClasses` from `src/sorter.ts`: scan all attribute
occurrences and emit the per-attribute diagnostics in order. -/
def findUnsortedClasses (ds : DesignSystemSort) (content filePath : List Char)
    (options : SortOptions) : List Diagnostic :=
  (scanAttrs content).filterMap
    (diagOfAttr ds (options.strategy.getD .tailwind) content filePath)

/-! ### C9: the tailwind strategy -/

/-- The known classes paired with their design-system keys, in input order. -/
def knownPairs (ds : DesignSystemSort) (classes : List (List Char)) :
    List (List Char × Int) :=
  classes.filterMap fun cls => (ds.getClassOrder cls).map fun o => (cls, o)

theorem sortTailwind_unknown_eq (ds : DesignSystemSort)
    (classes : List (List Char)) :
    ((classes.map fun cls => (cls, ds.getClassOrder cls)).filter fun p =>
        p.2 = none).map Prod.fst =
      classes.filter fun cls => ds.getClassOrder cls = none := by
  induction classes with
  | nil => rfl
  | cons c rest ih =>
    by_cases h : ds.getClassOrder c = none
    · simp [List.filter_cons, h, ih]
    · simp [List.filter_cons, h, ih]

theorem sortTailwind_known_eq (ds : DesignSystemSort)
    (classes : List (List Char)) :
    ((classes.map fun cls => (cls, ds.getClassOrder cls)).filterMap fun p =>
        match p.2 with
        | none => none
        | some o => some (p.1, o)) = knownPairs ds classes := by
  unfold knownPairs
  induction classes with
  | nil => rfl
  | cons c rest ih =>
    cases h : ds.getClassOrder c with
    | none => simpa [List.filterMap_cons, h] using ih
    | some o => simpa [List.filterMap_cons, h] using ih

theorem intPairLE_trans (a b c : List Char × Int) :
    (decide (a.2 ≤ b.2) : Bool) → (decide (b.2 ≤ c.2) : Bool) →
    (decide (a.2 ≤ c.2) : Bool) := by
  simp only [decide_eq_true_eq]
  omega

theorem intPairLE_total (a b : List Char × Int) :
    ((decide (a.2 ≤ b.2) : Bool) || decide (b.2 ≤ a.2)) = true := by
  simp only [Bool.or_eq_true, decide_eq_true_eq]
  omega

/-- Stability of the key sort, stated through filters: the classes holding
any fixed key `k` appear in the sorted output exactly in their input order. -/
theorem mergeSort_filter_key (l : List (List Char × Int)) (k : Int) :
    (List.mergeSort l fun a b => a.2 ≤ b.2).filter (fun p => p.2 = k) =
      l.filter fun p => p.2 = k := by
  have hallk : ∀ p ∈ l.filter (fun p => p.2 = k), p.2 = k := by
    intro p hp
    simpa using (List.mem_filter.mp hp).2
  have hpair : (l.filter fun p => p.2 = k).Pairwise
      (fun a b => (decide (a.2 ≤ b.2) : Bool) = true) := by
    refine List.pairwise_of_forall_mem_list ?_
    intro a ha b hb
    have := hallk a ha
    have := hallk b hb
    simp only [decide_eq_true_eq]
    omega
  have hsub : List.Sublist (l.filter fun p => p.2 = k)
      (List.mergeSort l fun a b => a.2 ≤ b.2) :=
    List.sublist_mergeSort intPairLE_trans intPairLE_total hpair
      (List.filter_sublist l)
  have hself : (l.filter fun p => p.2 = k).filter (fun p => p.2 = k) =
      l.filter fun p => p.2 = k := by
    refine List.filter_eq_self.mpr ?_
    intro p hp
    simpa using hallk p hp
  have hsub2 : List.Sublist (l.filter fun p => p.2 = k)
      ((List.mergeSort l fun a b => a.2 ≤ b.2).filter fun p => p.2 = k) := by
    have h2 := hsub.filter fun p => decide (p.2 = k)
    rwa [hself] at h2
  have hperm : ((List.mergeSort l fun a b => a.2 ≤ b.2).filter
      (fun p => p.2 = k)).Perm (l.filter fun p => p.2 = k) :=
    (List.mergeSort_perm l _).filter _
  exact (hsub2.eq_of_length hperm.length_eq.symm).symm

/-- **C9** (implicit).  Under the `tailwind` strategy:
* the output is exactly the unrecognized classes (`getClassOrder = null`),
  in their original relative order (an order-preserving filter), followed by
  the recognized classes;
* the recognized part is sorted by the design-system key
  (pairwise non-decreasing);
* it is a permutation of the recognized classes; and
* for every key value `k`, the classes with that key appear in their
  original relative order (stability, stated through filters). -/
theorem sortTailwind_spec (ds : DesignSystemSort) (classes : List (List Char)) :
    sortTailwind ds classes =
      (classes.filter fun cls => ds.getClassOrder cls = none) ++
        (List.mergeSort (knownPairs ds classes) fun a b => a.2 ≤ b.2).map
          Prod.fst ∧
    (List.mergeSort (knownPairs ds classes) fun a b => a.2 ≤ b.2).Pairwise
      (fun a b => a.2 ≤ b.2) ∧
    (List.mergeSort (knownPairs ds classes) fun a b => a.2 ≤ b.2).Perm
      (knownPairs ds classes) ∧
    ∀ k : Int,
      (List.mergeSort (knownPairs ds classes) fun a b => a.2 ≤ b.2).filter
          (fun p => p.2 = k) =
        (knownPairs ds classes).filter fun p => p.2 = k := by
  refine ⟨?_, ?_, List.mergeSort_perm _ _, fun k => mergeSort_filter_key _ k⟩
  · unfold sortTailwind
    rw [sortTailwind_unknown_eq, sortTailwind_known_eq]

  · have := @List.sorted_mergeSort (List Char × Int)
      (fun a b => decide (a.2 ≤ b.2))
      intPairLE_trans intPairLE_total (knownPairs ds classes)
    exact this.imp fun h => by simpa using h

/-! ### Tokenization lemmas -/

theorem wordsAux_tokens (s : List Char) :
    ∀ (acc : List Char), (∀ c ∈ acc, isJsWs c = false) →
    ∀ t ∈ wordsAux s acc, t ≠ [] ∧ ∀ c ∈ t, isJsWs c = false := by
  induction s with
  | nil =>
    intro acc hacc t ht
    unfold wordsAux at ht
    by_cases h : acc = []
    · simp [h] at ht
    · simp only [h, if_false] at ht
      rw [List.mem_singleton] at ht
      subst ht
      constructor
      · simpa using h
      · intro c hc
        exact hacc c (List.mem_reverse.mp hc)
  | cons c rest ih =>
    intro acc hacc t ht
    unfold wordsAux at ht
    by_cases hws : isJsWs c
    · rw [if_pos hws] at ht
      by_cases h : acc = []
      · rw [if_pos h] at ht
        exact ih [] (by simp) t ht
      · rw [if_neg h] at ht
        rcases List.mem_cons.mp ht with h1 | h1
        · subst h1
          exact ⟨by simpa using h, fun c hc => hacc c (List.mem_reverse.mp hc)⟩
        · exact ih [] (by simp) t h1
    · rw [if_neg hws] at ht
      refine ih (c :: acc) ?_ t ht
      intro d hd
      rcases List.mem_cons.mp hd with h1 | h1
      · subst h1
        simpa using hws
      · exact hacc d h1

theorem words_tokens (s : List Char) :
    ∀ t ∈ words s, t ≠ [] ∧ ∀ c ∈ t, isJsWs c = false :=
  wordsAux_tokens s [] (by simp)

theorem wordsAux_token_run (t : List Char) :
    ∀ (s acc : List Char), (∀ c ∈ t, isJsWs c = false) →
    wordsAux (t ++ s) acc = wordsAux s (t.reverse ++ acc) := by
  induction t with
  | nil => intro s acc _; simp
  | cons c t ih =>
    intro s acc h
    have hc : isJsWs c = false := h c (List.mem_cons_self c t)
    have step : wordsAux (c :: (t ++ s)) acc = wordsAux (t ++ s) (c :: acc) := by
      simp only [wordsAux, hc]
      simp
    rw [List.cons_append, step,
      ih s (c :: acc) (fun d hd => h d (List.mem_cons_of_mem c hd))]
    simp

theorem isJsWs_space : isJsWs ' ' = true := by decide

/-- Round trip: splitting the single-space join of nonempty whitespace-free
tokens recovers exactly the tokens. -/
theorem words_joinSpace (ts : List (List Char))
    (h : ∀ t ∈ ts, t ≠ [] ∧ ∀ c ∈ t, isJsWs c = false) :
    words (joinSpace ts) = ts := by
  induction ts with
  | nil => rfl
  | cons t ts ih =>
    obtain ⟨hne, hfree⟩ := h t (List.mem_cons_self t ts)
    cases ts with
    | nil =>
      show words (joinSpace [t]) = [t]
      unfold joinSpace words
      rw [show t = t ++ [] from (List.append_nil t).symm,
        wordsAux_token_run t [] [] hfree]
      unfold wordsAux
      simp only [List.append_nil]
      rw [if_neg (by simpa using hne)]
      simp
    | cons t' ts' =>
      show words (t ++ ' ' :: joinSpace (t' :: ts')) = t :: t' :: ts'
      unfold words
      rw [wordsAux_token_run t _ [] hfree]
      unfold wordsAux
      rw [isJsWs_space]
      simp only [if_true, List.append_nil]
      rw [if_neg (by simpa using hne)]
      rw [List.reverse_reverse]
      have := ih (fun u hu => h u (List.mem_cons_of_mem t hu))
      unfold words at this
      rw [this]

/-- Every class in the sorted output came from the input list. -/
theorem sortClasses_mem_subset (ds : DesignSystemSort) (strategy : SortStrategy)
    (classes : List (List Char)) :
    ∀ x ∈ sortClasses ds strategy classes, x ∈ classes := by
  intro x hx
  cases strategy with
  | alphabetical =>
    unfold sortClasses sortAlphabetical at hx
    exact List.mem_mergeSort.mp hx
  | tailwind =>
    unfold sortClasses sortTailwind at hx
    rw [sortTailwind_unknown_eq, sortTailwind_known_eq] at hx
    rcases List.mem_append.mp hx with h | h
    · exact (List.mem_filter.mp h).1
    · obtain ⟨p, hp, hpx⟩ := List.mem_map.mp h
      have hp' := List.mem_mergeSort.mp hp
      obtain ⟨cls, hcls, hmap⟩ := List.mem_filterMap.mp hp'
      obtain ⟨o, _, heq⟩ := Option.map_eq_some'.mp hmap
      subst hpx
      rw [← heq]
      exact hcls

/-- The tailwind strategy leaves the list unchanged when the design system
recognizes none of the classes. -/
theorem sortTailwind_all_unknown (ds : DesignSystemSort)
    (h : ∀ cls, ds.getClassOrder cls = none) (classes : List (List Char)) :
    sortTailwind ds classes = classes := by
  unfold sortTailwind
  rw [sortTailwind_unknown_eq, sortTailwind_known_eq]
  have h1 : (classes.filter fun cls => ds.getClassOrder cls = none) = classes :=
    List.filter_eq_self.mpr fun cls _ => by simp [h cls]
  have h2 : knownPairs ds classes = [] := by
    unfold knownPairs
    refine List.filterMap_eq_nil_iff.mpr ?_
    intro cls _
    simp [h cls]
  rw [h1, h2]
  simp

/-- **C10** (implicit).  The sorter compares whitespace-normalized token
sequences, not the raw attribute value:
* an attribute occurrence whose token sequence is already in sorted order
  produces no diagnostic, however irregular the whitespace (spaces, tabs,
  newlines) separating the tokens;
* every diagnostic `findUnsortedClasses` emits has as its canonical
  replacement the sorted tokens joined by single spaces — its `words` are
  exactly the sorted token sequence — and the edit spans the entire raw
  value, so applying the fix collapses every whitespace run between classes
  to a single space. -/
theorem sorter_whitespace_normalization (ds : DesignSystemSort)
    (options : SortOptions) (content filePath : List Char) :
    (∀ occ ∈ scanAttrs content,
      sortClasses ds (options.strategy.getD .tailwind) (words occ.value) =
        words occ.value →
      diagOfAttr ds (options.strategy.getD .tailwind) content filePath occ =
        none) ∧
    (∀ d ∈ findUnsortedClasses ds content filePath options,
      d.canonical =
        joinSpace (sortClasses ds (options.strategy.getD .tailwind)
          (words d.original)) ∧
      words d.canonical =
        sortClasses ds (options.strategy.getD .tailwind) (words d.original)) := by
  constructor
  · intro occ _ hsorted
    unfold diagOfAttr
    by_cases h0 : occ.value = []
    · rw [if_pos h0]
    · rw [if_neg h0]
      by_cases h1 : (words occ.value).length ≤ 1
      · rw [if_pos h1]
      · rw [if_neg h1, hsorted]
        simp
  · intro d hd
    obtain ⟨occ, hocc, hsome⟩ := List.mem_filterMap.mp hd
    unfold diagOfAttr at hsome
    by_cases h0 : occ.value = []
    · rw [if_pos h0] at hsome; exact absurd hsome (by simp)
    · rw [if_neg h0] at hsome
      by_cases h1 : (words occ.value).length ≤ 1
      · rw [if_pos h1] at hsome; exact absurd hsome (by simp)
      · rw [if_neg h1] at hsome
        by_cases h2 : joinSpace (sortClasses ds (options.strategy.getD .tailwind)
            (words occ.value)) ≠ joinSpace (words occ.value)
        · rw [if_pos h2] at hsome
          have hd' := Option.some.inj hsome
          subst hd'
          refine ⟨rfl, ?_⟩
          show words (joinSpace (sortClasses ds _ (words occ.value))) = _
          refine words_joinSpace _ ?_
          intro t ht
          exact words_tokens occ.value t
            (sortClasses_mem_subset ds _ (words occ.value) t ht)
        · rw [if_neg h2] at hsome; exact absurd hsome (by simp)

/-- Witness for C10: the design system recognizes nothing, so the tokens
`a b` of the tab-separated value `"a\tb"` are already sorted, and the
attribute produces no diagnostic despite the irregular whitespace. -/
theorem sorter_whitespace_normalization_witness :
    ((AttrOcc.mk 12 "a\tb".data) ∈ scanAttrs "<div class=\"a\tb\">".data ∧
      sortClasses ⟨fun _ => none, fun _ _ => 0⟩
        ((SortOptions.mk none).strategy.getD .tailwind)
        (words (AttrOcc.mk 12 "a\tb".data).value) =
        words (AttrOcc.mk 12 "a\tb".data).value) ∧
    diagOfAttr ⟨fun _ => none, fun _ _ => 0⟩
      ((SortOptions.mk none).strategy.getD .tailwind)
      "<div class=\"a\tb\">".data "t.html".data (AttrOcc.mk 12 "a\tb".data) =
      none :=
  ⟨⟨by decide, sortTailwind_all_unknown _ (fun _ => rfl) _⟩,
    (sorter_whitespace_normalization ⟨fun _ => none, fun _ _ => 0⟩
        (SortOptions.mk none) "<div class=\"a\tb\">".data "t.html".data).1
      (AttrOcc.mk 12 "a\tb".data) (by decide)
      (sortTailwind_all_unknown _ (fun _ => rfl) _)⟩

/-! ### C8: idempotence of the sort pass

The proof has three layers:
1. both sort strategies are idempotent (for `alphabetical` this uses that
   `localeCompare` induces a total preorder, which ECMA-402 guarantees);
2. the per-attribute guard is false both for untouched values and for the
   canonical replacements (`diagValueNone`);
3. rescanning the patched content finds exactly the corresponding attribute
   occurrences, with the patched values (`PatchedScan` below). -/

theorem knownPairs_append (ds : DesignSystemSort) (a b : List (List Char)) :
    knownPairs ds (a ++ b) = knownPairs ds a ++ knownPairs ds b := by
  unfold knownPairs
  exact List.filterMap_append a b _

theorem knownPairs_spec (ds : DesignSystemSort) (classes : List (List Char)) :
    ∀ p ∈ knownPairs ds classes, ds.getClassOrder p.1 = some p.2 := by
  intro p hp
  obtain ⟨cls, _, hmap⟩ := List.mem_filterMap.mp hp
  obtain ⟨o, ho, heq⟩ := Option.map_eq_some'.mp hmap
  cases heq
  simpa using ho

theorem knownPairs_of_spec (ds : DesignSystemSort)
    (M : List (List Char × Int))
    (h : ∀ p ∈ M, ds.getClassOrder p.1 = some p.2) :
    knownPairs ds (M.map Prod.fst) = M := by
  induction M with
  | nil => rfl
  | cons p M ih =>
    unfold knownPairs
    simp only [List.map_cons, List.filterMap_cons]
    rw [h p (List.mem_cons_self p M)]
    unfold knownPairs at ih
    rw [ih fun q hq => h q (List.mem_cons_of_mem p hq)]
    simp

theorem sortTailwind_restate (ds : DesignSystemSort) (cs : List (List Char)) :
    sortTailwind ds cs =
      (cs.filter fun cls => ds.getClassOrder cls = none) ++
        (List.mergeSort (knownPairs ds cs) fun a b => a.2 ≤ b.2).map Prod.fst := by
  unfold sortTailwind
  rw [sortTailwind_unknown_eq, sortTailwind_known_eq]

theorem sortTailwind_idem (ds : DesignSystemSort) (classes : List (List Char)) :
    sortTailwind ds (sortTailwind ds classes) = sortTailwind ds classes := by
  have hMspec : ∀ p ∈ List.mergeSort (knownPairs ds classes)
      (fun a b => a.2 ≤ b.2), ds.getClassOrder p.1 = some p.2 := fun p hp =>
    knownPairs_spec ds classes p (List.mem_mergeSort.mp hp)
  rw [sortTailwind_restate, sortTailwind_restate]
  have h1 : (((classes.filter fun cls => ds.getClassOrder cls = none) ++
      (List.mergeSort (knownPairs ds classes)
        (fun a b => a.2 ≤ b.2)).map Prod.fst).filter
      fun cls => ds.getClassOrder cls = none) =
      classes.filter fun cls => ds.getClassOrder cls = none := by
    rw [List.filter_append]
    have hU : ((classes.filter fun cls => ds.getClassOrder cls = none).filter
        fun cls => ds.getClassOrder cls = none) =
        classes.filter fun cls => ds.getClassOrder cls = none :=
      List.filter_eq_self.mpr fun cls hcls => (List.mem_filter.mp hcls).2
    have hM : (((List.mergeSort (knownPairs ds classes)
        (fun a b => a.2 ≤ b.2)).map Prod.fst).filter
        fun cls => ds.getClassOrder cls = none) = [] := by
      rw [List.filter_eq_nil_iff]
      intro x hx
      obtain ⟨p, hp, rfl⟩ := List.mem_map.mp hx
      simp [hMspec p hp]
    rw [hU, hM, List.append_nil]
  have h2 : knownPairs ds
      ((classes.filter fun cls => ds.getClassOrder cls = none) ++
        (List.mergeSort (knownPairs ds classes)
          (fun a b => a.2 ≤ b.2)).map Prod.fst) =
      List.mergeSort (knownPairs ds classes) fun a b => a.2 ≤ b.2 := by
    rw [knownPairs_append]
    have hU : knownPairs ds (classes.filter fun cls =>
        ds.getClassOrder cls = none) = [] := by
      unfold knownPairs
      refine List.filterMap_eq_nil_iff.mpr ?_
      intro cls hcls
      have := (List.mem_filter.mp hcls).2
      simp only [decide_eq_true_eq] at this
      simp [this]
    rw [hU, knownPairs_of_spec ds _ hMspec, List.nil_append]
  rw [h1, h2, List.mergeSort_of_sorted
    (List.sorted_mergeSort intPairLE_trans intPairLE_total (knownPairs ds classes))]

theorem sortAlphabetical_idem (ds : DesignSystemSort)
    (htrans : ∀ a b c, ds.localeCompare a b ≤ 0 → ds.localeCompare b c ≤ 0 →
      ds.localeCompare a c ≤ 0)
    (htotal : ∀ a b, ds.localeCompare a b ≤ 0 ∨ ds.localeCompare b a ≤ 0)
    (classes : List (List Char)) :
    sortAlphabetical ds (sortAlphabetical ds classes) =
      sortAlphabetical ds classes := by
  unfold sortAlphabetical
  refine List.mergeSort_of_sorted ?_
  refine List.sorted_mergeSort ?_ ?_ classes
  · intro a b c hab hbc
    simp only [decide_eq_true_eq] at hab hbc ⊢
    exact htrans a b c hab hbc
  · intro a b
    simp only [Bool.or_eq_true, decide_eq_true_eq]
    exact htotal a b

theorem sortClasses_idem (ds : DesignSystemSort) (strategy : SortStrategy)
    (htrans : ∀ a b c, ds.localeCompare a b ≤ 0 → ds.localeCompare b c ≤ 0 →
      ds.localeCompare a c ≤ 0)
    (htotal : ∀ a b, ds.localeCompare a b ≤ 0 ∨ ds.localeCompare b a ≤ 0)
    (classes : List (List Char)) :
    sortClasses ds strategy (sortClasses ds strategy classes) =
      sortClasses ds strategy classes := by
  cases strategy with
  | tailwind => exact sortTailwind_idem ds classes
  | alphabetical => exact sortAlphabetical_idem ds htrans htotal classes

/-- The value-only condition under which `diagOfAttr` emits nothing. -/
def diagValueNone (ds : DesignSystemSort) (strategy : SortStrategy)
    (v : List Char) : Prop :=
  v = [] ∨ (words v).length ≤ 1 ∨
    joinSpace (sortClasses ds strategy (words v)) = joinSpace (words v)

theorem diagOfAttr_none_iff (ds : DesignSystemSort) (strategy : SortStrategy)
    (content filePath : List Char) (occ : AttrOcc) :
    diagOfAttr ds strategy content filePath occ = none ↔
      diagValueNone ds strategy occ.value := by
  unfold diagOfAttr diagValueNone
  by_cases h0 : occ.value = []
  · simp [h0]
  · rw [if_neg h0]
    by_cases h1 : (words occ.value).length ≤ 1
    · simp [h0, h1]
    · rw [if_neg h1]
      by_cases h2 : joinSpace (sortClasses ds strategy (words occ.value)) ≠
          joinSpace (words occ.value)
      · simp [h0, h1, h2]
      · rw [if_neg h2]
        simp [h0, h1, not_not.mp h2]

theorem diagOfAttr_some_spec (ds : DesignSystemSort) (strategy : SortStrategy)
    (content filePath : List Char) (occ : AttrOcc) (d : Diagnostic)
    (h : diagOfAttr ds strategy content filePath occ = some d) :
    d.offset = occ.valueOffset ∧ d.length = occ.value.length ∧
      d.original = occ.value ∧
      d.canonical = joinSpace (sortClasses ds strategy (words occ.value)) ∧
      2 ≤ (words occ.value).length := by
  unfold diagOfAttr at h
  by_cases h0 : occ.value = []
  · rw [if_pos h0] at h; exact absurd h (by simp)
  · rw [if_neg h0] at h
    by_cases h1 : (words occ.value).length ≤ 1
    · rw [if_pos h1] at h; exact absurd h (by simp)
    · rw [if_neg h1] at h
      by_cases h2 : joinSpace (sortClasses ds strategy (words occ.value)) ≠
          joinSpace (words occ.value)
      · rw [if_pos h2] at h
        cases Option.some.inj h
        exact ⟨rfl, rfl, rfl, rfl, by omega⟩
      · rw [if_neg h2] at h; exact absurd h (by simp)

/-- The canonical replacement value never triggers the guard again. -/
theorem diagValueNone_canonical (ds : DesignSystemSort)
    (strategy : SortStrategy)
    (htrans : ∀ a b c, ds.localeCompare a b ≤ 0 → ds.localeCompare b c ≤ 0 →
      ds.localeCompare a c ≤ 0)
    (htotal : ∀ a b, ds.localeCompare a b ≤ 0 ∨ ds.localeCompare b a ≤ 0)
    (v : List Char) :
    diagValueNone ds strategy (joinSpace (sortClasses ds strategy (words v))) := by
  have hwords : words (joinSpace (sortClasses ds strategy (words v))) =
      sortClasses ds strategy (words v) := by
    refine words_joinSpace _ ?_
    intro t ht
    exact words_tokens v t (sortClasses_mem_subset ds strategy (words v) t ht)
  right; right
  rw [hwords, sortClasses_idem ds strategy htrans htotal]

/-! ### Structural lemmas about the regex prefix parser -/

theorem takeWhile_append_all_not {p : Char → Bool} (A : List Char) (b : Char)
    (B : List Char) (hA : ∀ c ∈ A, p c = true) (hb : p b = false) :
    (A ++ b :: B).takeWhile p = A := by
  rw [List.takeWhile_append_of_pos hA]
  simp [List.takeWhile_cons, hb]

theorem drop_length_takeWhile (p : Char → Bool) (l : List Char) :
    l.drop (l.takeWhile p).length = l.dropWhile p := by
  induction l with
  | nil => rfl
  | cons c t ih =>
    by_cases h : p c
    · simp only [List.takeWhile_cons, h, if_true, List.length_cons,
        List.drop_succ_cons, List.dropWhile_cons, ih]
    · simp only [List.takeWhile_cons, h, if_false, List.length_nil,
        List.drop_zero, List.dropWhile_cons]
      simp [h]

theorem dropWhile_head_not (p : Char → Bool) (l : List Char) (c : Char)
    (r : List Char) (h : l.dropWhile p = c :: r) : p c = false := by
  induction l with
  | nil => simp [List.dropWhile] at h
  | cons a t ih =>
    rw [List.dropWhile_cons] at h
    by_cases hp : p a
    · rw [if_pos hp] at h
      exact ih h
    · rw [if_neg hp] at h
      cases h
      simpa using hp

theorem takeWhile_decomp (p : Char → Bool) (l : List Char) (x : List Char)
    (h : l.drop (l.takeWhile p).length = x) : l = l.takeWhile p ++ x := by
  rw [← h, drop_length_takeWhile]
  exact (List.takeWhile_append_dropWhile p l).symm

theorem isJsWs_eqsign : isJsWs '=' = false := by decide

theorem isJsWs_quote (q : Char) (hq : q = dquote ∨ q = squote) :
    isJsWs q = false := by
  rcases hq with h | h <;> subst h <;> decide

/-- Unpacking a successful `\s*=\s*["']` parse into its components. -/
theorem parseEq_shape (w : List Char) (k : Nat) (q : Char)
    (h : parseEq w = some (k, q)) :
    ∃ ws1 ws2 : List Char,
      (∀ c ∈ ws1, isJsWs c = true) ∧ (∀ c ∈ ws2, isJsWs c = true) ∧
      (q = dquote ∨ q = squote) ∧
      k = ws1.length + 1 + ws2.length + 1 ∧
      w = ws1 ++ ('=' :: (ws2 ++ (q :: w.drop k))) := by
  unfold parseEq at h
  split at h
  next s2 heq1 =>
    split at h
    next q' tail heq2 =>
      split at h
      next hq' =>
        rw [Option.some.injEq, Prod.mk.injEq] at h
        obtain ⟨hk, hqq⟩ := h
        subst hqq
        refine ⟨w.takeWhile isJsWs, s2.takeWhile isJsWs, ?_, ?_, hq', hk.symm, ?_⟩
        · intro c hc; exact List.mem_takeWhile_imp hc
        · intro c hc; exact List.mem_takeWhile_imp hc
        · have hw : w = w.takeWhile isJsWs ++ '=' :: s2 :=
            takeWhile_decomp isJsWs w _ heq1
          have hs2 : s2 = s2.takeWhile isJsWs ++ q' :: tail :=
            takeWhile_decomp isJsWs s2 _ heq2
          have hF : w = (w.takeWhile isJsWs ++ ('=' :: (s2.takeWhile isJsWs ++
              [q']))) ++ tail := by
            conv_lhs => rw [hw]
            conv_lhs => rw [hs2]
            simp [List.append_assoc]
          have hdrop : w.drop k = tail := by
            conv_lhs => rw [hF]
            refine List.drop_left' ?_
            simp only [List.length_append, List.length_cons, List.length_nil]
            omega
          rw [hdrop]
          conv_lhs => rw [hF]
          simp [List.append_assoc]
      next => exact absurd h (by simp)
    next => exact absurd h (by simp)
  next => exact absurd h (by simp)

/-- Recomputing the `\s*=\s*["']` parse on a rebuilt suffix. -/
theorem parseEq_of_shape (ws1 ws2 : List Char) (q : Char) (rest : List Char)
    (hws1 : ∀ c ∈ ws1, isJsWs c = true) (hws2 : ∀ c ∈ ws2, isJsWs c = true)
    (hq : q = dquote ∨ q = squote) :
    parseEq (ws1 ++ ('=' :: (ws2 ++ (q :: rest)))) =
      some (ws1.length + 1 + ws2.length + 1, q) := by
  unfold parseEq
  have ht1 : (ws1 ++ ('=' :: (ws2 ++ (q :: rest)))).takeWhile isJsWs = ws1 :=
    takeWhile_append_all_not ws1 '=' _ hws1 isJsWs_eqsign
  rw [ht1, List.drop_left]
  have ht2 : (ws2 ++ (q :: rest)).takeWhile isJsWs = ws2 :=
    takeWhile_append_all_not ws2 q rest hws2 (isJsWs_quote q hq)
  simp only [ht2, List.drop_left]
  rw [if_pos hq]

/-- Unpacking a successful `class(?:Name)?\s*=\s*["']` parse. -/
theorem parsePre_shape (s : List Char) (n : Nat) (q : Char)
    (h : parsePre s = some (n, q)) :
    ∃ nm ws1 ws2 : List Char,
      (nm = [] ∨ nm = "Name".data) ∧
      (∀ c ∈ ws1, isJsWs c = true) ∧ (∀ c ∈ ws2, isJsWs c = true) ∧
      (q = dquote ∨ q = squote) ∧
      n = 5 + nm.length + ws1.length + 1 + ws2.length + 1 ∧
      s = "class".data ++ (nm ++ (ws1 ++ ('=' :: (ws2 ++ (q :: s.drop n))))) := by
  unfold parsePre at h
  by_cases h5 : s.take 5 = "class".data
  case neg => rw [if_neg h5] at h; exact absurd h (by simp)
  rw [if_pos h5] at h
  have hs5 : s = "class".data ++ s.drop 5 := by
    conv_lhs => rw [← List.take_append_drop 5 s, h5]
  by_cases hname : (s.drop 5).take 4 = "Name".data
  · rw [if_pos hname] at h
    obtain ⟨⟨k, q'⟩, hpe, hmap⟩ := Option.map_eq_some'.mp h
    rw [Prod.mk.injEq] at hmap
    obtain ⟨hn, hqq⟩ := hmap
    subst hqq
    obtain ⟨ws1, ws2, hws1, hws2, hq, hk, hw⟩ := parseEq_shape _ _ _ hpe
    refine ⟨"Name".data, ws1, ws2, Or.inr rfl, hws1, hws2, hq, by simp; omega, ?_⟩
    have h54 : s.drop 5 = "Name".data ++ s.drop 9 := by
      have : s.drop 5 = "Name".data ++ (s.drop 5).drop 4 := by
        conv_lhs => rw [← List.take_append_drop 4 (s.drop 5), hname]
      rwa [List.drop_drop] at this
    have hdropn : (s.drop 9).drop k = s.drop n := by
      rw [List.drop_drop, ← hn]
    conv_lhs => rw [hs5, h54, hw, hdropn]
  · rw [if_neg hname] at h
    obtain ⟨⟨k, q'⟩, hpe, hmap⟩ := Option.map_eq_some'.mp h
    rw [Prod.mk.injEq] at hmap
    obtain ⟨hn, hqq⟩ := hmap
    subst hqq
    obtain ⟨ws1, ws2, hws1, hws2, hq, hk, hw⟩ := parseEq_shape _ _ _ hpe
    refine ⟨[], ws1, ws2, Or.inl rfl, hws1, hws2, hq, by simp; omega, ?_⟩
    have hdropn : (s.drop 5).drop k = s.drop n := by
      rw [List.drop_drop, ← hn]
    conv_lhs => rw [hs5, hw, hdropn]
    simp

/-- Recomputing the full prefix parse on a rebuilt suffix: the result does
not depend on what follows the opening quote. -/
theorem parsePre_of_shape (nm ws1 ws2 : List Char) (q : Char)
    (rest : List Char)
    (hnm : nm = [] ∨ nm = "Name".data)
    (hws1 : ∀ c ∈ ws1, isJsWs c = true) (hws2 : ∀ c ∈ ws2, isJsWs c = true)
    (hq : q = dquote ∨ q = squote) :
    parsePre ("class".data ++ (nm ++ (ws1 ++ ('=' :: (ws2 ++ (q :: rest)))))) =
      some (5 + nm.length + ws1.length + 1 + ws2.length + 1, q) := by
  unfold parsePre
  have h5 : ("class".data ++ (nm ++ (ws1 ++ ('=' :: (ws2 ++ (q :: rest)))))).take 5 =
      "class".data := List.take_left' (by decide)
  have hdrop5 : ("class".data ++ (nm ++ (ws1 ++ ('=' :: (ws2 ++ (q :: rest)))))).drop 5 =
      nm ++ (ws1 ++ ('=' :: (ws2 ++ (q :: rest)))) := List.drop_left' (by decide)
  rw [if_pos h5]
  rcases hnm with hnm | hnm
  · subst hnm
    have hname : (("class".data ++ ([] ++ (ws1 ++ ('=' :: (ws2 ++ (q :: rest)))))).drop 5).take 4 ≠
        "Name".data := by
      rw [hdrop5]
      simp only [List.nil_append]
      cases hws : ws1 with
      | nil =>
        simp only [List.nil_append, List.take_cons]
        intro hcon
        have := (List.cons.inj hcon).1
        exact absurd this (by decide)
      | cons c t =>
        have hc : isJsWs c = true := by
          refine hws1 c ?_
          rw [hws]
          exact List.mem_cons_self c t
        simp only [List.cons_append, List.take_cons]
        intro hcon
        have h1 := (List.cons.inj hcon).1
        subst h1
        rw [show isJsWs 'N' = false by decide] at hc
        exact absurd hc (by simp)
    rw [if_neg hname, hdrop5]
    simp only [List.nil_append]
    rw [parseEq_of_shape ws1 ws2 q rest hws1 hws2 hq]
    simp only [Option.map_some', List.length_nil, Option.some.injEq,
      Prod.mk.injEq]
    exact ⟨by omega, trivial⟩
  · subst hnm
    have hname : (("class".data ++ ("Name".data ++ (ws1 ++ ('=' :: (ws2 ++ (q :: rest)))))).drop 5).take 4 =
        "Name".data := by
      rw [hdrop5]
      exact List.take_left' (by decide)
    rw [if_pos hname]
    have hdrop9 : ("class".data ++ ("Name".data ++ (ws1 ++ ('=' :: (ws2 ++ (q :: rest)))))).drop 9 =
        ws1 ++ ('=' :: (ws2 ++ (q :: rest))) := by
      rw [show ("class".data ++ ("Name".data ++ (ws1 ++ ('=' :: (ws2 ++ (q :: rest)))))) =
        (("class".data ++ "Name".data) ++ (ws1 ++ ('=' :: (ws2 ++ (q :: rest))))) by
          simp [List.append_assoc]]
      exact List.drop_left' (by decide)
    rw [hdrop9, parseEq_of_shape ws1 ws2 q rest hws1 hws2 hq]
    simp only [Option.map_some', Option.some.injEq, Prod.mk.injEq]
    exact ⟨by simp only [List.length_cons, List.length_nil]; omega, trivial⟩

/-- A failing or succeeding prefix parse cannot read past a quote character:
if `A` ends in a quote, a successful parse of `A ++ B` consumes at most `A`.
(The consumed prefix before its own opening quote consists of
`class`/`Name` letters, whitespace and `=` — never a quote.) -/
theorem parsePre_bound (A B : List Char) (A₀ : List Char) (qc : Char)
    (hA : A = A₀ ++ [qc]) (hqc : qc = dquote ∨ qc = squote)
    (k : Nat) (q₀ : Char) (h : parsePre (A ++ B) = some (k, q₀)) :
    k ≤ A.length := by
  by_contra hk
  push_neg at hk
  obtain ⟨nm, ws1, ws2, hnm, hws1, hws2, _, hn, hs⟩ := parsePre_shape _ _ _ h
  have hs' : A ++ B = ("class".data ++ (nm ++ (ws1 ++ ('=' :: ws2)))) ++
      (q₀ :: (A ++ B).drop k) := by
    conv_lhs => rw [hs]
    simp [List.append_assoc]
  have hlenP : ("class".data ++ (nm ++ (ws1 ++ ('=' :: ws2)))).length =
      5 + nm.length + ws1.length + 1 + ws2.length := by
    have h5 : ("class".data).length = 5 := by decide
    simp only [List.length_append, List.length_cons, List.length_nil, h5]
    omega
  have hALe : A.length ≤
      ("class".data ++ (nm ++ (ws1 ++ ('=' :: ws2)))).length := by
    rw [hlenP]
    omega
  have hAeq : A = ("class".data ++ (nm ++ (ws1 ++ ('=' :: ws2)))).take A.length :=
    calc A = (A ++ B).take A.length := (List.take_left A B).symm
      _ = (("class".data ++ (nm ++ (ws1 ++ ('=' :: ws2)))) ++
          (q₀ :: (A ++ B).drop k)).take A.length := by rw [← hs']
      _ = ("class".data ++ (nm ++ (ws1 ++ ('=' :: ws2)))).take A.length :=
        List.take_append_of_le_length hALe
  have hqcA : qc ∈ A := by
    rw [hA]
    simp
  rw [hAeq] at hqcA
  have hqcP : qc ∈ "class".data ++ (nm ++ (ws1 ++ ('=' :: ws2))) :=
    List.take_subset _ _ hqcA
  simp only [List.mem_append, List.mem_cons] at hqcP
  rcases hqcP with hcl | hnm' | hws | heq | hws
  · rcases hqc with rfl | rfl <;> exact absurd hcl (by decide)
  · rcases hnm with rfl | rfl
    · simp at hnm'
    · rcases hqc with rfl | rfl <;> exact absurd hnm' (by decide)
  · have := hws1 qc hws
    rw [isJsWs_quote qc hqc] at this
    exact absurd this (by simp)
  · rcases hqc with rfl | rfl <;> exact absurd heq (by decide)
  · have := hws2 qc hws
    rw [isJsWs_quote qc hqc] at this
    exact absurd this (by simp)

/-- If `A` ends in a quote character, the prefix parse of `A ++ B` does not
depend on `B`. -/
theorem parsePre_stable (A B B' : List Char) (A₀ : List Char) (qc : Char)
    (hA : A = A₀ ++ [qc]) (hqc : qc = dquote ∨ qc = squote)
    (k : Nat) (q₀ : Char) (h : parsePre (A ++ B) = some (k, q₀)) :
    parsePre (A ++ B') = some (k, q₀) := by
  have hk := parsePre_bound A B A₀ qc hA hqc k q₀ h
  obtain ⟨nm, ws1, ws2, hnm, hws1, hws2, hq₀, hn, hs⟩ := parsePre_shape _ _ _ h
  have hF : A.take k =
      "class".data ++ (nm ++ (ws1 ++ ('=' :: (ws2 ++ [q₀])))) := by
    have h1 : (A ++ B).take k = A.take k := List.take_append_of_le_length hk
    rw [← h1]
    conv_lhs => rw [hs]
    rw [show "class".data ++ (nm ++ (ws1 ++ ('=' ::
        (ws2 ++ (q₀ :: (A ++ B).drop k))))) =
      ("class".data ++ (nm ++ (ws1 ++ ('=' :: (ws2 ++ [q₀]))))) ++
        (A ++ B).drop k by simp [List.append_assoc]]
    refine List.take_left' ?_
    simp only [List.length_append, List.length_cons, List.length_nil]
    have : ("class".data).length = 5 := by decide
    omega
  have hsplit : A ++ B' = "class".data ++ (nm ++ (ws1 ++ ('=' ::
      (ws2 ++ (q₀ :: (A.drop k ++ B')))))) := by
    conv_lhs => rw [← List.take_append_drop k A]
    rw [hF]
    simp [List.append_assoc]
  rw [hsplit, parsePre_of_shape nm ws1 ws2 q₀ _ hnm hws1 hws2 hq₀, ← hn]

/-- Unpacking a successful regex match at the head of a suffix. -/
theorem matchAt_some_spec (s : List Char) (m : AttrMatch)
    (h : matchAt s = some m) :
    parsePre s = some (m.preLen, m.q) ∧ (¬ m.q ∈ m.value) ∧
      m.len ≤ s.length ∧
      s.drop m.preLen = m.value ++ (m.q :: s.drop m.len) := by
  unfold matchAt at h
  cases hp : parsePre s with
  | none => rw [hp] at h; exact absurd h (by simp)
  | some r =>
    obtain ⟨n, q⟩ := r
    rw [hp] at h
    simp only at h
    by_cases hcnd : n + ((s.drop n).takeWhile (notQuote q)).length < s.length
    · rw [if_pos hcnd] at h
      cases Option.some.inj h
      refine ⟨rfl, ?_, ?_, ?_⟩
      · intro hmem
        have := List.mem_takeWhile_imp hmem
        simp [notQuote] at this
      · show n + ((s.drop n).takeWhile (notQuote q)).length + 1 ≤ s.length
        omega
      · show s.drop n = ((s.drop n).takeWhile (notQuote q)) ++
            (q :: s.drop (n + ((s.drop n).takeWhile (notQuote q)).length + 1))
        have hsplit : s.drop n =
            ((s.drop n).takeWhile (notQuote q)) ++
              ((s.drop n).dropWhile (notQuote q)) :=
          (List.takeWhile_append_dropWhile _ _).symm
        have hlendrop : (s.drop n).length = s.length - n := by
          simp
        have hlt : ((s.drop n).takeWhile (notQuote q)).length <
            (s.drop n).length := by omega
        have hdw : (s.drop n).dropWhile (notQuote q) =
            (s.drop n).drop ((s.drop n).takeWhile (notQuote q)).length :=
          (drop_length_takeWhile _ _).symm
        have hne : (s.drop n).dropWhile (notQuote q) ≠ [] := by
          rw [hdw]
          intro hnil
          have := congrArg List.length hnil
          simp at this
          omega
        cases hd : (s.drop n).dropWhile (notQuote q) with
        | nil => exact absurd hd hne
        | cons c0 r =>
          have hc0 : notQuote q c0 = false :=
            dropWhile_head_not _ _ c0 r hd
          simp only [notQuote, decide_not, Bool.not_eq_false',
            decide_eq_true_eq] at hc0
          rw [hc0] at hd
          have hDr : (s.drop n).drop
              ((s.drop n).takeWhile (notQuote q)).length = q :: r :=
            hdw.symm.trans hd
          have hr : s.drop
              (n + ((s.drop n).takeWhile (notQuote q)).length + 1) = r := by
            calc s.drop (n + ((s.drop n).takeWhile (notQuote q)).length + 1) =
                ((s.drop n).drop
                  ((s.drop n).takeWhile (notQuote q)).length).drop 1 := by
                  rw [List.drop_drop, List.drop_drop]
                  congr 1
              _ = (q :: r).drop 1 := by rw [hDr]
              _ = r := rfl
          conv_lhs => rw [hsplit]
          rw [hd, hr]
    · rw [if_neg hcnd] at h; exact absurd h (by simp)

/-- Rebuilding a match: the same prefix with any quote-free value and a
closing quote matches, capturing that value, whatever follows. -/
theorem matchAt_of_shape (nm ws1 ws2 : List Char) (q : Char)
    (v rest : List Char)
    (hnm : nm = [] ∨ nm = "Name".data)
    (hws1 : ∀ c ∈ ws1, isJsWs c = true) (hws2 : ∀ c ∈ ws2, isJsWs c = true)
    (hq : q = dquote ∨ q = squote) (hqv : ¬ q ∈ v) :
    matchAt ("class".data ++ (nm ++ (ws1 ++ ('=' ::
        (ws2 ++ (q :: (v ++ (q :: rest)))))))) =
      some ⟨5 + nm.length + ws1.length + 1 + ws2.length + 1, q, v⟩ := by
  unfold matchAt
  rw [parsePre_of_shape nm ws1 ws2 q (v ++ (q :: rest)) hnm hws1 hws2 hq]
  simp only []
  have hdropn : ("class".data ++ (nm ++ (ws1 ++ ('=' ::
      (ws2 ++ (q :: (v ++ (q :: rest)))))))).drop
        (5 + nm.length + ws1.length + 1 + ws2.length + 1) =
      v ++ (q :: rest) := by
    rw [show "class".data ++ (nm ++ (ws1 ++ ('=' ::
        (ws2 ++ (q :: (v ++ (q :: rest))))))) =
      ("class".data ++ (nm ++ (ws1 ++ ('=' :: (ws2 ++ [q]))))) ++
        (v ++ (q :: rest)) by simp [List.append_assoc]]
    refine List.drop_left' ?_
    simp only [List.length_append, List.length_cons, List.length_nil]
    have : ("class".data).length = 5 := by decide
    omega
  rw [hdropn]
  have htw : (v ++ (q :: rest)).takeWhile (notQuote q) = v := by
    refine takeWhile_append_all_not v q rest ?_ (by simp [notQuote])
    intro c hc
    simp only [notQuote, decide_eq_true_eq]
    intro hcq
    exact hqv (hcq ▸ hc)
  rw [htw]
  split
  next hlt => rfl
  next hnc =>
    exfalso
    apply hnc
    have h5 : ("class".data).length = 5 := by decide
    simp only [List.length_append, List.length_cons, List.length_nil, h5]
    omega

theorem matchAt_nil : matchAt [] = none := by decide

theorem scanAttrsAux_nil (fuel pos : Nat) : scanAttrsAux fuel [] pos = [] := by
  cases fuel <;> rfl

theorem jsSlice_as_drop (l : List Char) (a b : Nat) :
    jsSlice l a b = (l.drop a).take (b - a) := by
  unfold jsSlice
  exact List.drop_take b a l

theorem drop_add_of_drop (content s : List Char) (pos k : Nat)
    (h : content.drop pos = s) : content.drop (pos + k) = s.drop k := by
  calc content.drop (pos + k) = (content.drop pos).drop k :=
      (List.drop_drop k pos content).symm
    _ = s.drop k := by rw [h]

theorem matchAt_none_of_parsePre_none (s : List Char)
    (hp : parsePre s = none) : matchAt s = none := by
  unfold matchAt
  rw [hp]

theorem takeWhile_notQuote_eq_self (q : Char) : ∀ (l : List Char),
    (¬ q ∈ l) → l.takeWhile (notQuote q) = l
  | [], _ => rfl
  | c :: t, h => by
    rw [List.takeWhile_cons]
    have hcq : notQuote q c = true := by
      simp only [notQuote, decide_eq_true_eq]
      intro hc
      exact h (by rw [← hc]; exact List.mem_cons_self c t)
    rw [if_pos hcq]
    have := takeWhile_notQuote_eq_self q t
      (fun hq => h (List.mem_cons_of_mem c hq))
    rw [this]

theorem length_takeWhile_lt_of_mem (q : Char) : ∀ (l : List Char), q ∈ l →
    (l.takeWhile (notQuote q)).length < l.length
  | [], h => by simp at h
  | c :: t, h => by
    rw [List.takeWhile_cons]
    by_cases hc : notQuote q c = true
    · rw [if_pos hc]
      have hqt : q ∈ t := by
        rcases List.mem_cons.mp h with h1 | h1
        · exfalso
          rw [← h1] at hc
          simp [notQuote] at hc
        · exact h1
      simp only [List.length_cons]
      have := length_takeWhile_lt_of_mem q t hqt
      omega
    · rw [if_neg hc]
      simp

theorem matchAt_none_of_no_close (s : List Char) (k : Nat) (q₀ : Char)
    (hp : parsePre s = some (k, q₀)) (h : ¬ q₀ ∈ s.drop k) :
    matchAt s = none := by
  unfold matchAt
  rw [hp]
  simp only
  split
  next hlt =>
    exfalso
    rw [takeWhile_notQuote_eq_self q₀ (s.drop k) h, List.length_drop] at hlt
    omega
  next => rfl

theorem matchAt_none_no_close (s : List Char) (k : Nat) (q₀ : Char)
    (hp : parsePre s = some (k, q₀)) (hf : matchAt s = none) :
    ¬ q₀ ∈ s.drop k := by
  intro hmem
  unfold matchAt at hf
  rw [hp] at hf
  simp only at hf
  have hlt := length_takeWhile_lt_of_mem q₀ (s.drop k) hmem
  rw [List.length_drop] at hlt
  have hk : k < s.length := by
    by_contra hcon
    push_neg at hcon
    rw [List.drop_eq_nil_of_le hcon] at hmem
    simp at hmem
  have hcond : k + ((s.drop k).takeWhile (notQuote q₀)).length < s.length := by
    omega
  rw [if_pos hcond] at hf
  exact absurd hf (by simp)

theorem wordsAux_chars : ∀ (s acc : List Char) (t : List Char),
    t ∈ wordsAux s acc → ∀ c ∈ t, c ∈ s ∨ c ∈ acc
  | [], acc, t, ht, c, hc => by
    unfold wordsAux at ht
    by_cases h : acc = []
    · simp [h] at ht
    · rw [if_neg h, List.mem_singleton] at ht
      subst ht
      exact Or.inr (List.mem_reverse.mp hc)
  | a :: rest, acc, t, ht, c, hc => by
    unfold wordsAux at ht
    by_cases hws : isJsWs a
    · rw [if_pos hws] at ht
      by_cases h : acc = []
      · rw [if_pos h] at ht
        rcases wordsAux_chars rest [] t ht c hc with h1 | h1
        · exact Or.inl (List.mem_cons_of_mem a h1)
        · simp at h1
      · rw [if_neg h, List.mem_cons] at ht
        rcases ht with ht | ht
        · subst ht
          exact Or.inr (List.mem_reverse.mp hc)
        · rcases wordsAux_chars rest [] t ht c hc with h1 | h1
          · exact Or.inl (List.mem_cons_of_mem a h1)
          · simp at h1
    · rw [if_neg hws] at ht
      rcases wordsAux_chars rest (a :: acc) t ht c hc with h1 | h1
      · exact Or.inl (List.mem_cons_of_mem a h1)
      · rw [List.mem_cons] at h1
        rcases h1 with h1 | h1
        · rw [h1]
          exact Or.inl (List.mem_cons_self a rest)
        · exact Or.inr h1

theorem words_chars (s t : List Char) (ht : t ∈ words s) :
    ∀ c ∈ t, c ∈ s := by
  intro c hc
  rcases wordsAux_chars s [] t ht c hc with h | h
  · exact h
  · simp at h

theorem mem_joinSpace (c : Char) : ∀ (L : List (List Char)),
    c ∈ joinSpace L → (∃ t ∈ L, c ∈ t) ∨ c = ' '
  | [], h => by simp [joinSpace] at h
  | [t], h => Or.inl ⟨t, by simp, h⟩
  | t :: t2 :: ts, h => by
    have hJ : joinSpace (t :: t2 :: ts) = t ++ ' ' :: joinSpace (t2 :: ts) :=
      rfl
    rw [hJ, List.mem_append, List.mem_cons] at h
    rcases h with h | h | h
    · exact Or.inl ⟨t, List.mem_cons_self t (t2 :: ts), h⟩
    · exact Or.inr h
    · rcases mem_joinSpace c (t2 :: ts) h with ⟨u, hu, hcu⟩ | h1
      · exact Or.inl ⟨u, List.mem_cons_of_mem t hu, hcu⟩
      · exact Or.inr h1

/-- Every character of the canonical replacement value is a character of the
original value, or a separating space. -/
theorem value_chars (ds : DesignSystemSort) (strategy : SortStrategy)
    (v : List Char) (c : Char)
    (hc : c ∈ joinSpace (sortClasses ds strategy (words v))) :
    c ∈ v ∨ c = ' ' := by
  rcases mem_joinSpace c _ hc with ⟨t, ht, hct⟩ | h
  · exact Or.inl (words_chars v t
      (sortClasses_mem_subset ds strategy (words v) t ht) c hct)
  · exact Or.inr h

theorem scanAttrsAux_succ_some (fuel : Nat) (s : List Char) (pos : Nat)
    (m : AttrMatch) (hm : matchAt s = some m) :
    scanAttrsAux (fuel + 1) s pos =
      ⟨pos + m.preLen, m.value⟩ ::
        scanAttrsAux fuel (s.drop m.len) (pos + m.len) := by
  simp only [scanAttrsAux, hm]

theorem scanAttrsAux_succ_none_cons (fuel : Nat) (c : Char) (t : List Char)
    (pos : Nat) (hm : matchAt (c :: t) = none) :
    scanAttrsAux (fuel + 1) (c :: t) pos = scanAttrsAux fuel t (pos + 1) := by
  simp only [scanAttrsAux, hm]

/-- The relation between a suffix of the original content and the
corresponding suffix of the patched content: the patch rewrites each matched
attribute value to a clean value made of original characters and spaces, and
leaves everything else untouched. -/
inductive PatchedScan (ds : DesignSystemSort) (strategy : SortStrategy) :
    List Char → List Char → Prop
  | nil : PatchedScan ds strategy [] []
  | gap (c : Char) (t u : List Char) (hm : matchAt (c :: t) = none)
      (h : PatchedScan ds strategy t u) :
      PatchedScan ds strategy (c :: t) (c :: u)
  | attr (nm ws1 ws2 v w rest rest2 : List Char) (q : Char)
      (hnm : nm = [] ∨ nm = "Name".data)
      (hws1 : ∀ c ∈ ws1, isJsWs c = true)
      (hws2 : ∀ c ∈ ws2, isJsWs c = true)
      (hq : q = dquote ∨ q = squote)
      (hqv : ¬ q ∈ v) (hqw : ¬ q ∈ w)
      (hchars : ∀ c ∈ w, c ∈ v ∨ c = ' ')
      (hclean : diagValueNone ds strategy w)
      (h : PatchedScan ds strategy rest rest2) :
      PatchedScan ds strategy
        ("class".data ++ (nm ++ (ws1 ++ ('=' ::
          (ws2 ++ (q :: (v ++ (q :: rest))))))))
        ("class".data ++ (nm ++ (ws1 ++ ('=' ::
          (ws2 ++ (q :: (w ++ (q :: rest2))))))))

theorem PatchedScan_chars (ds : DesignSystemSort) (strategy : SortStrategy)
    (s u : List Char) (h : PatchedScan ds strategy s u) :
    ∀ c ∈ u, c ∈ s ∨ c = ' ' := by
  induction h with
  | nil => intro c hc; simp at hc
  | gap c0 t u hm h ih =>
    intro c hc
    rcases List.mem_cons.mp hc with h1 | h1
    · rw [h1]; exact Or.inl (List.mem_cons_self c0 t)
    · rcases ih c h1 with h2 | h2
      · exact Or.inl (List.mem_cons_of_mem c0 h2)
      · exact Or.inr h2
  | attr nm ws1 ws2 v w rest rest2 q hnm hws1 hws2 hq hqv hqw hchars hclean h ih =>
    intro c hc
    simp only [List.mem_append, List.mem_cons] at hc ⊢
    rcases hc with hc | hc | hc | hc | hc | hc | hc | hc | hc
    · exact Or.inl (Or.inl hc)
    · exact Or.inl (Or.inr (Or.inl hc))
    · exact Or.inl (Or.inr (Or.inr (Or.inl hc)))
    · exact Or.inl (Or.inr (Or.inr (Or.inr (Or.inl hc))))
    · exact Or.inl (Or.inr (Or.inr (Or.inr (Or.inr (Or.inl hc)))))
    · exact Or.inl (Or.inr (Or.inr (Or.inr (Or.inr (Or.inr (Or.inl hc))))))
    · rcases hchars c hc with h2 | h2
      · exact Or.inl (Or.inr (Or.inr (Or.inr (Or.inr (Or.inr (Or.inr
          (Or.inl h2)))))))
      · exact Or.inr h2
    · exact Or.inl (Or.inr (Or.inr (Or.inr (Or.inr (Or.inr (Or.inr
        (Or.inr (Or.inl hc))))))))
    · rcases ih c hc with h2 | h2
      · exact Or.inl (Or.inr (Or.inr (Or.inr (Or.inr (Or.inr (Or.inr
          (Or.inr (Or.inr h2))))))))
      · exact Or.inr h2

/-- Failure transfer: a position that does not start a match in the original
content does not start a match in the patched content either, whatever common
prefix precedes the related suffixes. -/
theorem PatchedScan_matchAt_none (ds : DesignSystemSort)
    (strategy : SortStrategy) (s u : List Char)
    (h : PatchedScan ds strategy s u) :
    ∀ X : List Char, matchAt (X ++ s) = none → matchAt (X ++ u) = none := by
  induction h with
  | nil => intro X hf; exact hf
  | gap c0 t u hm h ih =>
    intro X hf
    have h1 : matchAt ((X ++ [c0]) ++ t) = none := by
      rw [show (X ++ [c0]) ++ t = X ++ (c0 :: t) by simp]
      exact hf
    have h2 := ih (X ++ [c0]) h1
    rw [show (X ++ [c0]) ++ u = X ++ (c0 :: u) by simp] at h2
    exact h2
  | attr nm ws1 ws2 v w rest rest2 q hnm hws1 hws2 hq hqv hqw hchars hclean h ih =>
    intro X hf
    cases hp : parsePre (X ++ ("class".data ++ (nm ++ (ws1 ++ ('=' ::
        (ws2 ++ (q :: (w ++ (q :: rest2))))))))) with
    | none => exact matchAt_none_of_parsePre_none _ hp
    | some r =>
      obtain ⟨k, q₀⟩ := r
      have hXu : X ++ ("class".data ++ (nm ++ (ws1 ++ ('=' ::
          (ws2 ++ (q :: (w ++ (q :: rest2)))))))) =
        (X ++ ("class".data ++ (nm ++ (ws1 ++ ('=' :: (ws2 ++ [q])))))) ++
          (w ++ (q :: rest2)) := by simp [List.append_assoc]
      have hXs : X ++ ("class".data ++ (nm ++ (ws1 ++ ('=' ::
          (ws2 ++ (q :: (v ++ (q :: rest)))))))) =
        (X ++ ("class".data ++ (nm ++ (ws1 ++ ('=' :: (ws2 ++ [q])))))) ++
          (v ++ (q :: rest)) := by simp [List.append_assoc]
      have hAend : X ++ ("class".data ++ (nm ++ (ws1 ++ ('=' ::
          (ws2 ++ [q]))))) =
          (X ++ ("class".data ++ (nm ++ (ws1 ++ ('=' :: ws2))))) ++ [q] := by
        simp [List.append_assoc]
      have hpu : parsePre ((X ++ ("class".data ++ (nm ++ (ws1 ++ ('=' ::
          (ws2 ++ [q])))))) ++ (w ++ (q :: rest2))) = some (k, q₀) := by
        rw [← hXu]; exact hp
      have hk : k ≤ (X ++ ("class".data ++ (nm ++ (ws1 ++ ('=' ::
          (ws2 ++ [q])))))).length :=
        parsePre_bound _ _ _ q hAend hq k q₀ hpu
      have hps : parsePre ((X ++ ("class".data ++ (nm ++ (ws1 ++ ('=' ::
          (ws2 ++ [q])))))) ++ (v ++ (q :: rest))) = some (k, q₀) :=
        parsePre_stable _ _ _ _ q hAend hq k q₀ hpu
      have hps0 : parsePre (X ++ ("class".data ++ (nm ++ (ws1 ++ ('=' ::
          (ws2 ++ (q :: (v ++ (q :: rest))))))))) = some (k, q₀) := by
        rw [hXs]; exact hps
      have hq₀quote : q₀ = dquote ∨ q₀ = squote := by
        obtain ⟨nm1, ws1a, ws2a, hnm1, hws1a, hws2a, hqq, hn1, hs1⟩ :=
          parsePre_shape _ _ _ hps0
        exact hqq
      have hnc := matchAt_none_no_close _ k q₀ hps0 hf
      rw [hXs, List.drop_append_of_le_length hk] at hnc
      simp only [List.mem_append, List.mem_cons] at hnc
      push_neg at hnc
      obtain ⟨hncA, hncv, hncq, hncrest⟩ := hnc
      have hq₀sp : q₀ ≠ ' ' := by
        rcases hq₀quote with h5 | h5 <;> (rw [h5]; decide)
      refine matchAt_none_of_no_close _ k q₀ hp ?_
      rw [hXu, List.drop_append_of_le_length hk]
      simp only [List.mem_append, List.mem_cons]
      push_neg
      refine ⟨hncA, ?_, hncq, ?_⟩
      · intro hmem
        rcases hchars q₀ hmem with h5 | h5
        · exact hncv h5
        · exact hq₀sp h5
      · intro hmem
        rcases PatchedScan_chars ds strategy rest rest2 h q₀ hmem with h5 | h5
        · exact hncrest h5
        · exact hq₀sp h5

/-- Every attribute occurrence the rescan of the patched content finds has a
clean value. -/
theorem PatchedScan_scan_values (ds : DesignSystemSort)
    (strategy : SortStrategy) (s u : List Char)
    (h : PatchedScan ds strategy s u) :
    ∀ fuel pos occ, occ ∈ scanAttrsAux fuel u pos →
      diagValueNone ds strategy occ.value := by
  induction h with
  | nil =>
    intro fuel pos occ hocc
    rw [scanAttrsAux_nil] at hocc
    simp at hocc
  | gap c0 t u hm h ih =>
    intro fuel pos occ hocc
    cases fuel with
    | zero => exact absurd hocc (List.not_mem_nil occ)
    | succ fuel =>
      have hmu : matchAt (c0 :: u) = none := by
        have h1 : matchAt ([c0] ++ t) = none := by
          rw [show [c0] ++ t = c0 :: t by simp]
          exact hm
        have h2 := PatchedScan_matchAt_none ds strategy t u h [c0] h1
        rw [show [c0] ++ u = c0 :: u by simp] at h2
        exact h2
      rw [scanAttrsAux_succ_none_cons fuel c0 u pos hmu] at hocc
      exact ih fuel (pos + 1) occ hocc
  | attr nm ws1 ws2 v w rest rest2 q hnm hws1 hws2 hq hqv hqw hchars hclean h ih =>
    intro fuel pos occ hocc
    cases fuel with
    | zero => exact absurd hocc (List.not_mem_nil occ)
    | succ fuel =>
      have hmu := matchAt_of_shape nm ws1 ws2 q w rest2 hnm hws1 hws2 hq hqw
      rw [scanAttrsAux_succ_some fuel _ pos _ hmu] at hocc
      have hdropl : ("class".data ++ (nm ++ (ws1 ++ ('=' :: (ws2 ++
          (q :: (w ++ (q :: rest2)))))))).drop
            (AttrMatch.len
              ⟨5 + nm.length + ws1.length + 1 + ws2.length + 1, q, w⟩) =
          rest2 := by
        show ("class".data ++ (nm ++ (ws1 ++ ('=' :: (ws2 ++
          (q :: (w ++ (q :: rest2)))))))).drop
            (5 + nm.length + ws1.length + 1 + ws2.length + 1 + w.length + 1) =
          rest2
        rw [show "class".data ++ (nm ++ (ws1 ++ ('=' :: (ws2 ++
            (q :: (w ++ (q :: rest2))))))) =
          ("class".data ++ (nm ++ (ws1 ++ ('=' ::
            (ws2 ++ (q :: (w ++ [q]))))))) ++ rest2 by
          simp [List.append_assoc]]
        refine List.drop_left' ?_
        have h5 : ("class".data).length = 5 := by decide
        simp only [List.length_append, List.length_cons, List.length_nil, h5]
        omega
      rw [hdropl] at hocc
      rcases List.mem_cons.mp hocc with h1 | h1
      · rw [h1]
        exact hclean
      · exact ih fuel _ occ h1

theorem scanAttrsAux_pos_le : ∀ (fuel : Nat) (s : List Char) (p : Nat)
    (occ : AttrOcc), occ ∈ scanAttrsAux fuel s p → p ≤ occ.valueOffset
  | 0, _, _, occ, h => absurd h (List.not_mem_nil occ)
  | fuel + 1, s, p, occ, h => by
    cases hm : matchAt s with
    | some m =>
      rw [scanAttrsAux_succ_some fuel s p m hm] at h
      rcases List.mem_cons.mp h with h1 | h1
      · rw [h1]
        show p ≤ p + m.preLen
        omega
      · have := scanAttrsAux_pos_le fuel (s.drop m.len) (p + m.len) occ h1
        omega
    | none =>
      cases s with
      | nil =>
        rw [scanAttrsAux_nil] at h
        exact absurd h (List.not_mem_nil occ)
      | cons c t =>
        rw [scanAttrsAux_succ_none_cons fuel c t p hm] at h
        have := scanAttrsAux_pos_le fuel t (p + 1) occ h
        omega

theorem scan_changes_lb (ds : DesignSystemSort) (strategy : SortStrategy)
    (content filePath : List Char) (fuel : Nat) (s : List Char) (p : Nat)
    (ch : StringChange)
    (hch : ch ∈ ((scanAttrsAux fuel s p).filterMap
      (diagOfAttr ds strategy content filePath)).map
        fun d => StringChange.mk d.offset (d.offset + d.length) d.canonical) :
    p ≤ ch.start := by
  rcases List.mem_map.mp hch with ⟨d, hd, hchd⟩
  rcases List.mem_filterMap.mp hd with ⟨occ, hocc, hdocc⟩
  have h1 := scanAttrsAux_pos_le fuel s p occ hocc
  have h2 := (diagOfAttr_some_spec ds strategy content filePath occ d hdocc).1
  rw [← hchd]
  show p ≤ d.offset
  omega

theorem spliceWalk_skip (content : List Char) (pos k : Nat)
    (cs : List StringChange) (hlen : pos + k ≤ content.length)
    (hcs : ∀ ch ∈ cs, pos + k ≤ ch.start) :
    spliceWalk content pos cs =
      jsSlice content pos (pos + k) ++ spliceWalk content (pos + k) cs := by
  cases cs with
  | nil =>
    show jsSlice content pos content.length =
      jsSlice content pos (pos + k) ++ jsSlice content (pos + k) content.length
    exact (jsSlice_glue content (by omega) hlen).symm
  | cons ch rest =>
    show jsSlice content pos ch.start ++ ch.replacement ++
        spliceWalk content ch.stop rest =
      jsSlice content pos (pos + k) ++
        (jsSlice content (pos + k) ch.start ++ ch.replacement ++
          spliceWalk content ch.stop rest)
    rw [← jsSlice_glue content (show pos ≤ pos + k by omega)
      (hcs ch (List.mem_cons_self ch rest))]
    simp [List.append_assoc]

/-- The construction: splicing the changes the scan of a suffix reports
yields a patched suffix related to the original by `PatchedScan`. -/
theorem spliceSuffix (ds : DesignSystemSort) (strategy : SortStrategy)
    (htrans : ∀ a b c, ds.localeCompare a b ≤ 0 → ds.localeCompare b c ≤ 0 →
      ds.localeCompare a c ≤ 0)
    (htotal : ∀ a b, ds.localeCompare a b ≤ 0 ∨ ds.localeCompare b a ≤ 0)
    (content filePath : List Char) :
    ∀ (fuel : Nat) (s : List Char) (pos : Nat), content.drop pos = s →
      s.length ≤ fuel →
    ∃ u, PatchedScan ds strategy s u ∧
      spliceWalk content pos
        (((scanAttrsAux fuel s pos).filterMap
          (diagOfAttr ds strategy content filePath)).map
          fun d => StringChange.mk d.offset (d.offset + d.length) d.canonical)
        = u := by
  intro fuel
  induction fuel with
  | zero =>
    intro s pos hdrop hfuel
    have hs : s = [] := List.length_eq_zero.mp (Nat.le_zero.mp hfuel)
    subst hs
    refine ⟨[], PatchedScan.nil, ?_⟩
    show jsSlice content pos content.length = []
    rw [jsSlice_as_drop, hdrop]
    simp
  | succ fuel ih =>
    intro s pos hdrop hfuel
    cases hm : matchAt s with
    | none =>
      cases s with
      | nil =>
        refine ⟨[], PatchedScan.nil, ?_⟩
        rw [scanAttrsAux_nil]
        show jsSlice content pos content.length = []
        rw [jsSlice_as_drop, hdrop]
        simp
      | cons c t =>
        have hdropt : content.drop (pos + 1) = t := by
          have h1 := drop_add_of_drop content (c :: t) pos 1 hdrop
          simpa using h1
        have hfuelt : t.length ≤ fuel := by
          have h1 : (c :: t).length = t.length + 1 := by simp
          omega
        obtain ⟨u, hPS, hequ⟩ := ih t (pos + 1) hdropt hfuelt
        refine ⟨c :: u, PatchedScan.gap c t u hm hPS, ?_⟩
        rw [scanAttrsAux_succ_none_cons fuel c t pos hm]
        have hb : ∀ ch ∈ (((scanAttrsAux fuel t (pos + 1)).filterMap
            (diagOfAttr ds strategy content filePath)).map
            fun d => StringChange.mk d.offset (d.offset + d.length) d.canonical),
            pos + 1 ≤ ch.start :=
          fun ch hch =>
            scan_changes_lb ds strategy content filePath fuel t (pos + 1) ch hch
        have hlen1 : pos + 1 ≤ content.length := by
          have hL := congrArg List.length hdrop
          rw [List.length_drop] at hL
          simp at hL
          omega
        rw [spliceWalk_skip content pos 1 _ hlen1 hb, hequ]
        rw [jsSlice_as_drop, Nat.add_sub_cancel_left, hdrop]
        simp
    | some m =>
      obtain ⟨hp, hqv, hlenle, hdropPre⟩ := matchAt_some_spec s m hm
      obtain ⟨nm, ws1, ws2, hnm, hws1, hws2, hq, hn, hsShape⟩ :=
        parsePre_shape s m.preLen m.q hp
      have hsfull : s = "class".data ++ (nm ++ (ws1 ++ ('=' ::
          (ws2 ++ (m.q :: (m.value ++ (m.q :: s.drop m.len))))))) := by
        conv_lhs => rw [hsShape]
        rw [hdropPre]
      have hdropt : content.drop (pos + m.len) = s.drop m.len :=
        drop_add_of_drop content s pos m.len hdrop
      have hlen1 : 1 ≤ m.len := by
        show 1 ≤ m.preLen + m.value.length + 1
        omega
      have hfuelt : (s.drop m.len).length ≤ fuel := by
        rw [List.length_drop]
        omega
      obtain ⟨rest2, hPSrest, heqrest⟩ :=
        ih (s.drop m.len) (pos + m.len) hdropt hfuelt
      have hC : content.length - pos = s.length := by
        have h1 := congrArg List.length hdrop
        rw [List.length_drop] at h1
        exact h1
      have hposlen : pos + m.len ≤ content.length := by omega
      have hbt : ∀ ch ∈ (((scanAttrsAux fuel (s.drop m.len) (pos + m.len)).filterMap
          (diagOfAttr ds strategy content filePath)).map
          fun d => StringChange.mk d.offset (d.offset + d.length) d.canonical),
          pos + m.len ≤ ch.start :=
        fun ch hch => scan_changes_lb ds strategy content filePath fuel
          (s.drop m.len) (pos + m.len) ch hch
      cases hdg : diagOfAttr ds strategy content filePath
          ⟨pos + m.preLen, m.value⟩ with
      | none =>
        have hcleanv : diagValueNone ds strategy m.value :=
          (diagOfAttr_none_iff ds strategy content filePath
            ⟨pos + m.preLen, m.value⟩).mp hdg
        refine ⟨"class".data ++ (nm ++ (ws1 ++ ('=' ::
            (ws2 ++ (m.q :: (m.value ++ (m.q :: rest2))))))), ?_, ?_⟩
        · rw [hsfull]
          exact PatchedScan.attr nm ws1 ws2 m.value m.value (s.drop m.len)
            rest2 m.q hnm hws1 hws2 hq hqv hqv (fun c hc => Or.inl hc)
            hcleanv hPSrest
        · rw [scanAttrsAux_succ_some fuel s pos m hm,
            List.filterMap_cons_none hdg]
          rw [spliceWalk_skip content pos m.len _ hposlen hbt, heqrest]
          have htake : jsSlice content pos (pos + m.len) =
              "class".data ++ (nm ++ (ws1 ++ ('=' ::
                (ws2 ++ (m.q :: (m.value ++ [m.q])))))) := by
            rw [jsSlice_as_drop, Nat.add_sub_cancel_left, hdrop]
            conv_lhs => rw [hsfull]
            rw [show "class".data ++ (nm ++ (ws1 ++ ('=' :: (ws2 ++
                (m.q :: (m.value ++ (m.q :: s.drop m.len))))))) =
              ("class".data ++ (nm ++ (ws1 ++ ('=' ::
                (ws2 ++ (m.q :: (m.value ++ [m.q]))))))) ++ s.drop m.len by
              simp [List.append_assoc]]
            refine List.take_left' ?_
            have hlen2 : AttrMatch.len m = m.preLen + m.value.length + 1 := rfl
            have h5 : ("class".data).length = 5 := by decide
            simp only [List.length_append, List.length_cons, List.length_nil,
              h5]
            omega
          rw [htake]
          simp [List.append_assoc]
      | some d =>
        obtain ⟨hdoff, hdlen, hdorig, hdcanon, hdwords⟩ :=
          diagOfAttr_some_spec ds strategy content filePath
            ⟨pos + m.preLen, m.value⟩ d hdg
        have hcharsw : ∀ c ∈ joinSpace (sortClasses ds strategy
            (words m.value)), c ∈ m.value ∨ c = ' ' :=
          fun c hc => value_chars ds strategy m.value c hc
        have hqw : ¬ m.q ∈ joinSpace (sortClasses ds strategy
            (words m.value)) := by
          intro hmem
          rcases hcharsw m.q hmem with h1 | h1
          · exact hqv h1
          · rcases hq with h2 | h2 <;>
              (rw [h2] at h1; exact absurd h1 (by decide))
        have hclean : diagValueNone ds strategy
            (joinSpace (sortClasses ds strategy (words m.value))) :=
          diagValueNone_canonical ds strategy htrans htotal m.value
        refine ⟨"class".data ++ (nm ++ (ws1 ++ ('=' :: (ws2 ++ (m.q ::
            ((joinSpace (sortClasses ds strategy (words m.value))) ++
              (m.q :: rest2))))))), ?_, ?_⟩
        · rw [hsfull]
          exact PatchedScan.attr nm ws1 ws2 m.value _ (s.drop m.len)
            rest2 m.q hnm hws1 hws2 hq hqv hqw hcharsw hclean hPSrest
        · rw [scanAttrsAux_succ_some fuel s pos m hm,
            List.filterMap_cons_some hdg, List.map_cons]
          show jsSlice content pos d.offset ++ d.canonical ++
              spliceWalk content (d.offset + d.length)
                (((scanAttrsAux fuel (s.drop m.len) (pos + m.len)).filterMap
                  (diagOfAttr ds strategy content filePath)).map
                  fun d => StringChange.mk d.offset (d.offset + d.length)
                    d.canonical) = _
          rw [hdoff, hdlen, hdcanon]
          rw [Nat.add_assoc pos m.preLen m.value.length]
          have hidx : pos + (m.preLen + m.value.length) + 1 = pos + m.len := by
            show _ = pos + (m.preLen + m.value.length + 1)
            omega
          have hdrop2 : content.drop (pos + (m.preLen + m.value.length)) =
              m.q :: s.drop m.len := by
            rw [drop_add_of_drop content s pos _ hdrop,
              ← List.drop_drop]
            rw [hdropPre]
            exact List.drop_left' rfl
          have hskip := spliceWalk_skip content
            (pos + (m.preLen + m.value.length)) 1
            (((scanAttrsAux fuel (s.drop m.len) (pos + m.len)).filterMap
              (diagOfAttr ds strategy content filePath)).map
              fun d => StringChange.mk d.offset (d.offset + d.length)
                d.canonical)
            (by rw [hidx]; exact hposlen)
            (by intro ch hch; rw [hidx]; exact hbt ch hch)
          rw [hskip]
          have hq1 : jsSlice content (pos + (m.preLen + m.value.length))
              (pos + (m.preLen + m.value.length) + 1) = [m.q] := by
            rw [jsSlice_as_drop, Nat.add_sub_cancel_left, hdrop2]
            rfl
          rw [hq1, hidx, heqrest]
          have hP : jsSlice content pos (pos + m.preLen) =
              "class".data ++ (nm ++ (ws1 ++ ('=' :: (ws2 ++ [m.q])))) := by
            rw [jsSlice_as_drop, Nat.add_sub_cancel_left, hdrop]
            conv_lhs => rw [hsfull]
            rw [show "class".data ++ (nm ++ (ws1 ++ ('=' :: (ws2 ++
                (m.q :: (m.value ++ (m.q :: s.drop m.len))))))) =
              ("class".data ++ (nm ++ (ws1 ++ ('=' :: (ws2 ++ [m.q]))))) ++
                (m.value ++ (m.q :: s.drop m.len)) by
              simp [List.append_assoc]]
            refine List.take_left' ?_
            rw [hn]
            have h5 : ("class".data).length = 5 := by decide
            simp only [List.length_append, List.length_cons, List.length_nil,
              h5]
            omega
          rw [hP]
          simp [List.append_assoc]

theorem scan_changes_chain (ds : DesignSystemSort) (strategy : SortStrategy)
    (content filePath : List Char) :
    ∀ (fuel : Nat) (s : List Char) (p : Nat),
    (((scanAttrsAux fuel s p).filterMap
      (diagOfAttr ds strategy content filePath)).map
      fun d => StringChange.mk d.offset (d.offset + d.length)
        d.canonical).Pairwise (fun a b => a.stop ≤ b.start)
  | 0, _, _ => List.Pairwise.nil
  | fuel + 1, s, p => by
    cases hm : matchAt s with
    | none =>
      cases s with
      | nil =>
        rw [scanAttrsAux_nil]
        exact List.Pairwise.nil
      | cons c t =>
        rw [scanAttrsAux_succ_none_cons fuel c t p hm]
        exact scan_changes_chain ds strategy content filePath fuel t (p + 1)
    | some m =>
      rw [scanAttrsAux_succ_some fuel s p m hm]
      cases hdg : diagOfAttr ds strategy content filePath
          ⟨p + m.preLen, m.value⟩ with
      | none =>
        rw [List.filterMap_cons_none hdg]
        exact scan_changes_chain ds strategy content filePath fuel
          (s.drop m.len) (p + m.len)
      | some d =>
        rw [List.filterMap_cons_some hdg, List.map_cons]
        refine List.Pairwise.cons ?_
          (scan_changes_chain ds strategy content filePath fuel
            (s.drop m.len) (p + m.len))
        intro b hb
        have hlb := scan_changes_lb ds strategy content filePath fuel
          (s.drop m.len) (p + m.len) b hb
        obtain ⟨hdoff, hdlen, _, _, _⟩ :=
          diagOfAttr_some_spec ds strategy content filePath
            ⟨p + m.preLen, m.value⟩ d hdg
        show d.offset + d.length ≤ b.start
        have he1 : d.offset = p + m.preLen := hdoff
        have he2 : d.length = m.value.length := hdlen
        rw [he1, he2]
        have hlen2 : AttrMatch.len m = m.preLen + m.value.length + 1 := rfl
        omega

theorem scan_changes_sorted (ds : DesignSystemSort) (strategy : SortStrategy)
    (content filePath : List Char) (fuel : Nat) (s : List Char) (p : Nat) :
    (((scanAttrsAux fuel s p).filterMap
      (diagOfAttr ds strategy content filePath)).map
      fun d => StringChange.mk d.offset (d.offset + d.length)
        d.canonical).Pairwise (fun a b => changeLE a b) := by
  have h1 := scan_changes_chain ds strategy content filePath fuel s p
  refine List.Pairwise.imp_of_mem ?_ h1
  intro a b ha hb hab
  rcases List.mem_map.mp ha with ⟨d1, _, had⟩
  rcases List.mem_map.mp hb with ⟨d2, _, hbd⟩
  have has : a.start ≤ a.stop := by
    rw [← had]
    show d1.offset ≤ d1.offset + d1.length
    omega
  have hbs : b.start ≤ b.stop := by
    rw [← hbd]
    show d2.offset ≤ d2.offset + d2.length
    omega
  simp only [changeLE, Bool.or_eq_true, Bool.and_eq_true, decide_eq_true_eq,
    beq_iff_eq]
  omega

/-- C8: Idempotence of the sort pass.  For every content string, with the
design system's class-order function and its collation treated as fixed pure
parameters (the collation assumed to be a total preorder, as
`String.prototype.localeCompare` per ECMA-402 is), applying `applyFixes` to
the diagnostics produced by `findUnsortedClasses` and then running
`findUnsortedClasses` again on the resulting text under the same strategy
yields zero diagnostics, so a second fix run changes nothing. -/
theorem sortPass_idempotent (ds : DesignSystemSort) (options : SortOptions)
    (content filePath : List Char)
    (htrans : ∀ a b c, ds.localeCompare a b ≤ 0 → ds.localeCompare b c ≤ 0 →
      ds.localeCompare a c ≤ 0)
    (htotal : ∀ a b, ds.localeCompare a b ≤ 0 ∨ ds.localeCompare b a ≤ 0) :
    findUnsortedClasses ds
      (applyFixes content (findUnsortedClasses ds content filePath options))
      filePath options = [] := by
  by_cases hd : (findUnsortedClasses ds content filePath options).length = 0
  · have happ : applyFixes content
        (findUnsortedClasses ds content filePath options) = content := by
      simp only [applyFixes]
      rw [if_pos hd]
    rw [happ]
    exact List.length_eq_zero.mp hd
  · have happ : applyFixes content
        (findUnsortedClasses ds content filePath options) =
      spliceChangesIntoString content
        ((findUnsortedClasses ds content filePath options).map
          fun d => StringChange.mk d.offset (d.offset + d.length)
            d.canonical) := by
      simp only [applyFixes]
      rw [if_neg hd]
    rw [happ]
    have hchanges : (findUnsortedClasses ds content filePath options).map
        (fun d => StringChange.mk d.offset (d.offset + d.length)
          d.canonical) =
      ((scanAttrsAux content.length content 0).filterMap
        (diagOfAttr ds (options.strategy.getD .tailwind) content
          filePath)).map
        fun d => StringChange.mk d.offset (d.offset + d.length)
          d.canonical := rfl
    rw [hchanges]
    have hsorted := scan_changes_sorted ds (options.strategy.getD .tailwind)
      content filePath content.length content 0
    rw [spliceChangesIntoString_of_sorted _ _ hsorted]
    obtain ⟨u, hPS, hequ⟩ := spliceSuffix ds (options.strategy.getD .tailwind)
      htrans htotal content filePath content.length content 0 rfl (le_refl _)
    rw [hequ]
    show (scanAttrs u).filterMap
      (diagOfAttr ds (options.strategy.getD .tailwind) u filePath) = []
    rw [List.filterMap_eq_nil_iff]
    intro occ hocc
    rw [diagOfAttr_none_iff]
    exact PatchedScan_scan_values ds (options.strategy.getD .tailwind)
      content u hPS u.length 0 occ hocc

/-- C8 witness: the sort pass is idempotent at a concrete design system
(every class unknown, constant collation, whose total-preorder obligations
are discharged by explicit terms) and a concrete content string with an
unsorted attribute. -/
theorem sortPass_idempotent_witness :
    findUnsortedClasses ⟨fun _ => none, fun _ _ => 0⟩
      (applyFixes "<div class=\"b a\">".data
        (findUnsortedClasses ⟨fun _ => none, fun _ _ => 0⟩
          "<div class=\"b a\">".data [] ⟨none⟩))
      [] ⟨none⟩ = [] :=
  sortPass_idempotent ⟨fun _ => none, fun _ _ => 0⟩ ⟨none⟩
    "<div class=\"b a\">".data []
    (fun _ _ _ _ _ => le_refl 0)
    (fun _ _ => Or.inl (le_refl 0))

end Nyx
